import Mathlib

/-!
Verification of the py-serialization core: the Record/Hierarchy data model
(`node.py`), the flat-index translator (`customs.py` `Customs.translate`),
and the codec adapter read/write paths (`customs.py` `Customs.read` /
`Customs.write`), shallowly embedded in Lean.
-/

namespace PySer

/-- Record: the `Node` NamedTuple of `node.py` (inode metadata).
Python ints are modelled as `Nat` (ids are inode numbers, sizes and
timestamps are non-negative in the data model); `parent_id` is
`Optional[int]`, `None` for a root node. -/
structure Node where
  id : Nat
  tag : String
  name : String
  parent_id : Option Nat
  stem : String
  extension : String
  path : String
  size : Nat
  owner : Nat
  group : Nat
  created : Nat
  accessed : Nat
  modified : Nat
  owner_perm : Nat
  group_perm : Nat
  other_perm : Nat
deriving DecidableEq, Repr

/-- `node.py` `Node.is_dir`: `self.tag[0] == "D"`.  For a non-empty tag this
is exactly "first character is 'D'"; Python raises on an empty tag, the
model returns `false` there (claims about `is_dir` assume a non-empty tag). -/
def Node.is_dir (n : Node) : Bool := n.tag.data.head? == some 'D'

/-- Python truthiness of `tn.me.parent_id` as used in `Customs.translate`
(`if not tn.me.parent_id`): `None` and `0` are falsy. -/
def Node.noParent (n : Node) : Bool :=
  match n.parent_id with
  | none => true
  | some p => p == 0

/-- Hierarchy: the `TreeNode` NamedTuple of `node.py`: a directory record
`me`, its file records `files`, and its child subtrees `dirs`. -/
inductive TreeNode : Type where
  | mk (me : Node) (files : List Node) (dirs : List TreeNode)

/-- The `me` field of a `TreeNode`. -/
def TreeNode.me : TreeNode → Node
  | .mk m _ _ => m

/-- The `files` field of a `TreeNode`. -/
def TreeNode.files : TreeNode → List Node
  | .mk _ f _ => f

/-- The `dirs` field of a `TreeNode`. -/
def TreeNode.dirs : TreeNode → List TreeNode
  | .mk _ _ d => d

mutual

/-- `node.py` `TreeNode.node_iter`: yield `me`, then the file records in
order, then recursively the traversal of each child subtree in order.
The generator is modelled as the list of yielded records. -/
def TreeNode.node_iter : TreeNode → List Node
  | .mk me files dirs => me :: (files ++ nodeIterList dirs)

/-- Traversals of a list of subtrees, concatenated in order (the inner
`for d in self.dirs: yield from d.node_iter()` loop). -/
def nodeIterList : List TreeNode → List Node
  | [] => []
  | t :: ts => t.node_iter ++ nodeIterList ts

end

mutual

/-- `node.py` `TreeNode.iter`: yield this `TreeNode`, then recursively every
`TreeNode` of each child subtree, in order. -/
def TreeNode.iter : TreeNode → List TreeNode
  | .mk me files dirs => .mk me files dirs :: iterList dirs

/-- `iter` of a list of subtrees, concatenated in order. -/
def iterList : List TreeNode → List TreeNode
  | [] => []
  | t :: ts => t.iter ++ iterList ts

end

/-- Induction principle for the nested inductive `TreeNode`, with a separate
motive for subtree lists. -/
theorem TreeNode.ind {P : TreeNode → Prop} {Q : List TreeNode → Prop}
    (h1 : ∀ me files dirs, Q dirs → P (TreeNode.mk me files dirs))
    (h2 : Q []) (h3 : ∀ t ts, P t → Q ts → Q (t :: ts)) :
    (∀ t, P t) ∧ (∀ ts, Q ts) := by
  have hT : ∀ t, P t := fun t => @TreeNode.rec P Q h1 h2 h3 t
  refine ⟨hT, ?_⟩
  intro ts
  induction ts with
  | nil => exact h2
  | cons t ts ih => exact h3 t ts (hT t) ih

/-! ## Python dict model

Python dicts preserve insertion order; assigning to an existing key replaces
its value in place (keeping its position), assigning a fresh key appends.
A dict keyed by ints is modelled as an insertion-ordered association list. -/

/-- An insertion-ordered int-keyed Python dict. -/
abbrev PyDict (α : Type) : Type := List (Nat × α)

/-- Dict lookup `d[k]` (as an `Option`; `none` is Python's `KeyError`). -/
def pyGet {α} (d : PyDict α) (k : Nat) : Option α :=
  (List.find? (fun p => p.1 == k) d).map Prod.snd

/-- `d.keys()`, in order. -/
def pyKeys {α} (d : PyDict α) : List Nat := List.map Prod.fst d

/-- Dict assignment `d[k] = v`: replace in place if `k` is present,
append otherwise. -/
def pySet {α} (d : PyDict α) (k : Nat) (v : α) : PyDict α :=
  if k ∈ pyKeys d then
    List.map (fun p => if p.1 = k then (k, v) else p) d
  else d ++ [(k, v)]

/-- `d.values()`, in order. -/
def pyValues {α} (d : PyDict α) : List α := List.map Prod.snd d

/-- `len(d)`. -/
def pyLen {α} (d : PyDict α) : Nat := List.length d

theorem pySet_of_not_mem {α} {d : PyDict α} {k : Nat} (v : α)
    (h : k ∉ pyKeys d) : pySet d k v = d ++ [(k, v)] := by
  simp [pySet, h]

theorem pyGet_cons {α} (p : Nat × α) (d : PyDict α) (k : Nat) :
    pyGet (p :: d) k = if p.1 = k then some p.2 else pyGet d k := by
  by_cases h : p.1 = k
  · simp [pyGet, List.find?_cons_of_pos, h]
  · simp [pyGet, List.find?_cons_of_neg, h]

theorem pyGet_of_not_mem {α} {d : PyDict α} {k : Nat}
    (h : k ∉ pyKeys d) : pyGet d k = none := by
  induction d with
  | nil => rfl
  | cons p d ih =>
    simp only [pyKeys, List.map_cons, List.mem_cons, not_or] at h
    rw [pyGet_cons, if_neg (fun hp => h.1 hp.symm)]
    exact ih h.2

theorem pyGet_append {α} (d e : PyDict α) (k : Nat) :
    pyGet (d ++ e) k = (pyGet d k).or (pyGet e k) := by
  simp only [pyGet, List.find?_append]
  cases List.find? (fun p => p.1 == k) d <;> simp

theorem pyGet_singleton {α} (k q : Nat) (v : α) :
    pyGet [(k, v)] q = if k = q then some v else none := by
  by_cases h : k = q
  · subst h; simp [pyGet]
  · simp [pyGet, List.find?_cons_of_neg, h]

theorem pyGet_replace_self {α} (k : Nat) (v : α) :
    ∀ (d : PyDict α), k ∈ pyKeys d →
      pyGet (List.map (fun p => if p.1 = k then (k, v) else p) d) k = some v := by
  intro d
  induction d with
  | nil => intro h; simp [pyKeys] at h
  | cons p d ih =>
    intro h
    rw [List.map_cons]
    by_cases hp : p.1 = k
    · rw [if_pos hp, pyGet_cons, if_pos rfl]
    · have h2 : k ∈ pyKeys d := by
        simp only [pyKeys, List.map_cons, List.mem_cons] at h
        rcases h with h1 | h1
        · exact absurd h1.symm hp
        · exact h1
      rw [if_neg hp, pyGet_cons, if_neg hp]
      exact ih h2

theorem pyGet_replace_ne {α} (k q : Nat) (v : α) (hne : k ≠ q) :
    ∀ (d : PyDict α),
      pyGet (List.map (fun p => if p.1 = k then (k, v) else p) d) q = pyGet d q := by
  intro d
  induction d with
  | nil => rfl
  | cons p d ih =>
    rw [List.map_cons, pyGet_cons, pyGet_cons]
    by_cases hp : p.1 = k
    · rw [if_pos hp]
      have hpq : ¬ p.1 = q := by rw [hp]; exact hne
      rw [if_neg (show ¬ ((k, v) : Nat × α).1 = q from hne), if_neg hpq]
      exact ih
    · rw [if_neg hp]
      by_cases hpq : p.1 = q
      · rw [if_pos hpq, if_pos hpq]
      · rw [if_neg hpq, if_neg hpq]
        exact ih

theorem pyGet_pySet_self {α} (d : PyDict α) (k : Nat) (v : α) :
    pyGet (pySet d k v) k = some v := by
  by_cases h : k ∈ pyKeys d
  · rw [pySet, if_pos h]
    exact pyGet_replace_self k v d h
  · rw [pySet, if_neg h, pyGet_append, pyGet_singleton, if_pos rfl,
      pyGet_of_not_mem h]
    rfl

theorem pyGet_pySet_ne {α} (d : PyDict α) (k q : Nat) (v : α) (hne : k ≠ q) :
    pyGet (pySet d k v) q = pyGet d q := by
  by_cases h : k ∈ pyKeys d
  · rw [pySet, if_pos h]
    exact pyGet_replace_ne k q v hne d
  · rw [pySet, if_neg h, pyGet_append, pyGet_singleton, if_neg hne]
    cases pyGet d q <;> rfl

theorem pyKeys_append {α} (d e : PyDict α) :
    pyKeys (d ++ e) = pyKeys d ++ pyKeys e := by
  simp [pyKeys]

theorem pyKeys_pySet_of_mem {α} (d : PyDict α) (k : Nat) (v : α)
    (h : k ∈ pyKeys d) : pyKeys (pySet d k v) = pyKeys d := by
  rw [pySet, if_pos h]
  simp only [pyKeys, List.map_map]
  apply List.map_congr_left
  intro p _
  by_cases hp : p.1 = k <;> simp [hp]

/-- Lookup in a dict built as a `map` over distinct keys finds each member's
own value. -/
theorem pyGet_map_nodup {β α} (key : β → Nat) (val : β → α) :
    ∀ (L : List β), (List.map key L).Nodup → ∀ b ∈ L,
      pyGet (List.map (fun b => (key b, val b)) L) (key b) = some (val b) := by
  intro L
  induction L with
  | nil => intro _ b hb; simp at hb
  | cons c L ih =>
    intro hnd b hb
    simp only [List.map_cons, List.nodup_cons] at hnd
    rcases List.mem_cons.mp hb with rfl | hb
    · simp [pyGet, List.find?_cons]
    · have hne : ¬ key c = key b := by
        intro h
        exact hnd.1 (h ▸ List.mem_map_of_mem key hb)
      have := ih hnd.2 b hb
      simpa [pyGet, List.find?_cons, hne] using this

/-- Folding `pySet` over entries with fresh, pairwise-distinct keys appends
them in order. -/
theorem foldl_pySet_fresh {β α} (key : β → Nat) (val : β → α) :
    ∀ (L : List β) (acc : PyDict α), (List.map key L).Nodup →
      (∀ b ∈ L, key b ∉ pyKeys acc) →
      List.foldl (fun d b => pySet d (key b) (val b)) acc L
        = acc ++ List.map (fun b => (key b, val b)) L := by
  intro L
  induction L with
  | nil => intro acc _ _; simp
  | cons c L ih =>
    intro acc hnd hfresh
    simp only [List.map_cons, List.nodup_cons] at hnd
    have hc : key c ∉ pyKeys acc := hfresh c (List.mem_cons_self c L)
    have hstep : pySet acc (key c) (val c) = acc ++ [(key c, val c)] :=
      pySet_of_not_mem (val c) hc
    have hkeys : pyKeys (acc ++ [(key c, val c)]) = pyKeys acc ++ [key c] := by
      simp [pyKeys]
    have hfresh2 : ∀ b ∈ L, key b ∉ pyKeys (acc ++ [(key c, val c)]) := by
      intro b hb
      rw [hkeys]
      simp only [List.mem_append, List.mem_singleton]
      rintro (h | h)
      · exact hfresh b (List.mem_cons_of_mem c hb) h
      · exact hnd.1 (h ▸ List.mem_map_of_mem key hb)
    simp only [List.foldl_cons, hstep]
    rw [ih _ hnd.2 hfresh2]
    simp

/-- A fold guarded by a filter condition is a fold over the filtered list. -/
theorem foldl_if_filter {β γ} (p : β → Bool) (g : γ → β → γ) :
    ∀ (L : List β) (a : γ),
      List.foldl (fun acc b => if p b then g acc b else acc) a L
        = List.foldl g a (List.filter p L) := by
  intro L
  induction L with
  | nil => intro a; rfl
  | cons c L ih =>
    intro a
    by_cases h : p c <;> simp [List.filter_cons, h, ih]

/-! ## Remaining TreeNode operations -/

/-- `node.py` `TreeNode.node_counts`: run `node_iter` and count dirs and
files (the two counters of the Python loop, as a fold). -/
def TreeNode.node_counts (t : TreeNode) : Nat × Nat :=
  List.foldl
    (fun (acc : Nat × Nat) item =>
      if item.is_dir then (acc.1 + 1, acc.2) else (acc.1, acc.2 + 1))
    (0, 0) t.node_iter

/-- `node.py` `TreeNode.to_id_dict`: `result[item.id] = item` over
`node_iter`. -/
def TreeNode.to_id_dict (t : TreeNode) : PyDict Node :=
  List.foldl (fun r item => pySet r item.id item) [] t.node_iter

/-- `node.py` `TreeNode.to_tn_dict`: `result[item.me.id] = item` over
`iter`. -/
def TreeNode.to_tn_dict (t : TreeNode) : PyDict TreeNode :=
  List.foldl (fun r item => pySet r item.me.id item) [] t.iter

/-- `node.py` `TreeNode.new`: wrap a record in a `TreeNode` with empty
child collections.  The Python code performs no check on the record's
kind.  (`Node.new(p)`, which reads the filesystem, is modelled by passing
the resulting record directly.) -/
def TreeNode.new (n : Node) : TreeNode := .mk n [] []

/-- `node.py` `TreeNode.add`.  The outcome of `Node.new(p)` (which touches
the filesystem and may raise) is passed as an `Except`: `.error` models a
raised exception, which `add` catches.  The result is the pair
(returned value, updated `self`): on exception `(none, self)` with `self`
unchanged; for a directory record, a fresh child `TreeNode` is appended to
`dirs` and returned; for a file record it is appended to `files` and the
(updated) `self` is returned. -/
def TreeNode.add (t : TreeNode) (r : Except String Node) :
    Option TreeNode × TreeNode :=
  match r with
  | .error _ => (none, t)
  | .ok node =>
    if node.is_dir then
      let child : TreeNode := .mk node [] []
      (some child, .mk t.me t.files (t.dirs ++ [child]))
    else
      let t2 : TreeNode := .mk t.me (t.files ++ [node]) t.dirs
      (some t2, t2)

/-! ## customs.py: FileType -/

/-- `customs.py` `FileType`: the known formats. -/
inductive FileType : Type where
  | PICKLE | CBOR | CBOR2 | CSV | JSON | MSGPACK | PROTOBUF | SIMPLEJSON | UJSON
deriving DecidableEq, Repr

/-- The enum member's string value. -/
def FileType.value : FileType → String
  | .PICKLE => "pickle"
  | .CBOR => "CBOR"
  | .CBOR2 => "CBOR2"
  | .CSV => "csv"
  | .JSON => "json"
  | .MSGPACK => "msgpack"
  | .PROTOBUF => "protobuf"
  | .SIMPLEJSON => "simplejson"
  | .UJSON => "ujson"

/-- `customs.py` `FileType.path`: `f"./data/{self.value}/{stem}.{self.value}"`. -/
def FileType.path (ft : FileType) (stem : String) : String :=
  "./data/" ++ ft.value ++ "/" ++ stem ++ "." ++ ft.value

/-! ## customs.py: Customs.translate

`Customs.translate` (the id_dict → TreeNode direction) mutates `TreeNode`
shells held in `self.tn_dict` in place, linking children to parents by
reference.  The mutable object graph is modelled explicitly: a `Shell` is
one `tn_dict` entry whose child subtrees are tracked by their dict keys,
and `materialize` reads back the `TreeNode` value a shell denotes once
linking is finished. -/

/-- One `tn_dict` entry during reconstruction: the dir record, the file
records appended so far, and the keys of the child shells appended so far. -/
structure Shell where
  me : Node
  files : List Node
  dirIds : List Nat
deriving DecidableEq, Repr

/-- A raised Python exception: `KeyError` (carrying the missing key, which
may be `None`) or `ValueError`. -/
inductive PyErr : Type where
  | keyError (k : Option Nat)
  | valueError (msg : String)
deriving DecidableEq, Repr

/-- First loop of the id_dict branch: shell every directory record
(`self.tn_dict[id] = TreeNode(me=node, files=[], dirs=[])`). -/
def buildShells (id_dict : PyDict Node) : PyDict Shell :=
  List.foldl
    (fun acc kv =>
      if kv.2.is_dir then pySet acc kv.1 ⟨kv.2, [], []⟩ else acc)
    [] id_dict

/-- The `(key, node)` pairs a dict of shells presents to the second loop
(`for tn in self.tn_dict.values()`, reading `tn.me`). -/
def shellItems (shells : PyDict Shell) : List (Nat × Node) :=
  List.map (fun kv => (kv.1, kv.2.me)) shells

/-- Second loop: for each shell, mark it as root if its record's parent id
is falsy (`None` or `0`), else append it to its parent shell's `dirs`
(raising `KeyError` when the parent id is not a `tn_dict` key).  The last
parentless shell wins the root. -/
def linkDirs : List (Nat × Node) → PyDict Shell → Option Nat →
    Except PyErr (PyDict Shell × Option Nat)
  | [], shells, root => .ok (shells, root)
  | (k, me) :: rest, shells, root =>
    if me.noParent then linkDirs rest shells (some k)
    else
      match me.parent_id with
      | none => linkDirs rest shells (some k)
      | some p =>
        match pyGet shells p with
        | none => .error (.keyError (some p))
        | some s => linkDirs rest (pySet shells p ⟨s.me, s.files, s.dirIds ++ [k]⟩) root

/-- Third loop: append every file record to its parent shell's `files`
(`self.tn_dict[node.parent_id].files.append(node)`), raising `KeyError`
when the parent id is `None` or not a `tn_dict` key. -/
def linkFiles : List (Nat × Node) → PyDict Shell → Except PyErr (PyDict Shell)
  | [], shells => .ok shells
  | (_, n) :: rest, shells =>
    if n.is_dir then linkFiles rest shells
    else
      match n.parent_id with
      | none => .error (.keyError none)
      | some p =>
        match pyGet shells p with
        | none => .error (.keyError (some p))
        | some s => linkFiles rest (pySet shells p ⟨s.me, s.files ++ [n], s.dirIds⟩)

/-- Result of `Customs.translate`: from a `TreeNode` (pickle) the derived
dicts; from an `id_dict` the root shell key (if any shell was parentless)
and the linked shells. -/
inductive TransOut : Type where
  | fromTree (id_dict : PyDict Node) (tn_dict : PyDict TreeNode)
  | fromDict (root : Option Nat) (shells : PyDict Shell)

/-- `customs.py` `Customs.translate`, as a function of the internal state
(`self.treenode`, `self.id_dict`): with a truthy `treenode`, derive
`id_dict`/`tn_dict`; else with a truthy (non-empty) `id_dict`, rebuild the
hierarchy; else raise `ValueError`. -/
def Customs.translate (treenode : Option TreeNode) (id_dict : PyDict Node) :
    Except PyErr TransOut :=
  match treenode with
  | some t => .ok (.fromTree t.to_id_dict t.to_tn_dict)
  | none =>
    if id_dict.isEmpty then .error (.valueError "No internal format to translate.")
    else
      let shells0 := buildShells id_dict
      match linkDirs (shellItems shells0) shells0 none with
      | .error e => .error e
      | .ok (shells1, root) =>
        match linkFiles id_dict shells1 with
        | .error e => .error e
        | .ok shells2 => .ok (.fromDict root shells2)

mutual

/-- Read back the `TreeNode` denoted by the shell at key `k`: the Python
objects in `tn_dict` reference their children directly; this dereferences
the key graph (with fuel, since an arbitrary shell graph may be cyclic). -/
def materialize (shells : PyDict Shell) : Nat → Nat → Option TreeNode
  | 0, _ => none
  | fuel + 1, k =>
    match pyGet shells k with
    | none => none
    | some s =>
      match materializeList shells fuel s.dirIds with
      | none => none
      | some ds => some (.mk s.me s.files ds)

/-- Dereference a list of child shell keys in order. -/
def materializeList (shells : PyDict Shell) : Nat → List Nat → Option (List TreeNode)
  | _, [] => some []
  | fuel, k :: ks =>
    match materialize shells fuel k, materializeList shells fuel ks with
    | some t, some ts => some (t :: ts)
    | _, _ => none

end

/-! ## customs.py: Customs.write / Customs.read

The byte-level serialization libraries (pickle, csv, json, ujson,
simplejson, msgpack, cbor, cbor2) are external; what each adapter hands
them, and what it rebuilds from their output, is modelled exactly:

* pickle stores `self.treenode` itself;
* csv writes one row of strings per record of `self.treenode.node_iter()`
  (the `csv` module renders `None` as the empty string and ints via `str`),
  and on read re-parses every non-`str`-declared field with `int(...)`;
* the remaining implemented formats store `self.id_dict.values()` as a
  sequence of field dicts and rebuild `id_dict` keyed by `item['id']`;
* `FileType.PROTOBUF` has no branch in either `read` or `write`.
-/

/-- Decimal digit to character (`'0'`–`'9'`). -/
def digitChar (d : Nat) : Char := Char.ofNat (48 + d)

/-- Decimal rendering loop (fuel-based; `fuel > n` always suffices). -/
def natToStrAux : Nat → Nat → List Char → List Char
  | 0, _, acc => acc
  | fuel + 1, n, acc =>
    if n < 10 then digitChar n :: acc
    else natToStrAux fuel (n / 10) (digitChar (n % 10) :: acc)

/-- Python `str` on a non-negative int. -/
def natToStr (n : Nat) : String := ⟨natToStrAux (n + 1) n []⟩

/-- Character to decimal digit, if it is one. -/
def charDigit? (c : Char) : Option Nat :=
  if 48 ≤ c.toNat ∧ c.toNat ≤ 57 then some (c.toNat - 48) else none

/-- Parse every character of a decimal string. -/
def digitsOf : List Char → Option (List Nat)
  | [] => some []
  | c :: cs =>
    match charDigit? c, digitsOf cs with
    | some d, some ds => some (d :: ds)
    | _, _ => none

/-- Python `int(s)` on the strings this code produces: fails (`ValueError`)
on the empty string or any non-digit character. -/
def natParse? (s : String) : Option Nat :=
  if s.data.isEmpty then none
  else (digitsOf s.data).map (fun ds => Nat.ofDigits 10 (List.reverse ds))

/-- `csv.DictWriter` renders `None` as the empty string. -/
def optToStr : Option Nat → String
  | none => ""
  | some p => natToStr p

/-- One csv row: every field of a record as written by `csv.DictWriter`
(all cells are strings). -/
structure CsvNode where
  id : String
  tag : String
  name : String
  parent_id : String
  stem : String
  extension : String
  path : String
  size : String
  owner : String
  group : String
  created : String
  accessed : String
  modified : String
  owner_perm : String
  group_perm : String
  other_perm : String
deriving DecidableEq, Repr

/-- Render a record as a csv row (`w.writerow(item._asdict())`). -/
def nodeToCsv (n : Node) : CsvNode :=
  ⟨natToStr n.id, n.tag, n.name, optToStr n.parent_id, n.stem, n.extension,
   n.path, natToStr n.size, natToStr n.owner, natToStr n.group,
   natToStr n.created, natToStr n.accessed, natToStr n.modified,
   natToStr n.owner_perm, natToStr n.group_perm, natToStr n.other_perm⟩

/-- Python `int(line[field])` during csv read: `ValueError` on failure. -/
def pyInt (s : String) : Except PyErr Nat :=
  match natParse? s with
  | some n => .ok n
  | none => .error (.valueError s)

/-- Rebuild a record from a csv row: `int(...)` is applied to every field
not declared `str` (`id`, `parent_id`, `size`, `owner`, `group`, `created`,
`accessed`, `modified` and the three permission fields); note the decoded
`parent_id` is always a present int (the csv adapter cannot restore
`None`). -/
def csvToNode (r : CsvNode) : Except PyErr Node := do
  let id ← pyInt r.id
  let parent ← pyInt r.parent_id
  let size ← pyInt r.size
  let owner ← pyInt r.owner
  let group ← pyInt r.group
  let created ← pyInt r.created
  let accessed ← pyInt r.accessed
  let modified ← pyInt r.modified
  let op ← pyInt r.owner_perm
  let gp ← pyInt r.group_perm
  let tp ← pyInt r.other_perm
  pure ⟨id, r.tag, r.name, some parent, r.stem, r.extension, r.path, size,
    owner, group, created, accessed, modified, op, gp, tp⟩

/-- The written archive content each adapter hands to its library. -/
inductive Archive : Type where
  | tree (t : Option TreeNode)
  | rows (rs : List CsvNode)
  | dicts (ds : List Node)

/-- What `Customs.read` returns: a `TreeNode` (pickle), an `id_dict`
(all other implemented formats), or `None` (unhandled format: the method
falls through every branch). -/
inductive ReadOut : Type where
  | tn (t : Option TreeNode)
  | dict (d : PyDict Node)
  | noneOut

/-- `customs.py` `Customs.write`, as a function of the internal state.
The csv branch iterates `self.treenode.node_iter()` and crashes if
`treenode` is `None` (modelled as `none`); `PROTOBUF` writes nothing. -/
def Customs.write (treenode : Option TreeNode) (id_dict : PyDict Node) :
    FileType → Option Archive
  | .PICKLE => some (.tree treenode)
  | .CSV =>
    match treenode with
    | none => none
    | some t => some (.rows (List.map nodeToCsv t.node_iter))
  | .MSGPACK => some (.dicts (pyValues id_dict))
  | .JSON => some (.dicts (pyValues id_dict))
  | .UJSON => some (.dicts (pyValues id_dict))
  | .SIMPLEJSON => some (.dicts (pyValues id_dict))
  | .CBOR => some (.dicts (pyValues id_dict))
  | .CBOR2 => some (.dicts (pyValues id_dict))
  | .PROTOBUF => none

/-- Rebuild `id_dict` from a decoded sequence of record dicts
(`self.id_dict[item['id']] = Node(**item)`), as in the msgpack, json,
ujson, simplejson, cbor and cbor2 read branches and `_json_read`. -/
def jsonReadList (items : List Node) : PyDict Node :=
  List.foldl (fun d it => pySet d it.id it) [] items

/-- The csv read loop: coerce each row's fields and key by `int(line['id'])`;
a coercion failure aborts the read. -/
def csvReadRows : List CsvNode → PyDict Node → Except PyErr (PyDict Node)
  | [], d => .ok d
  | r :: rs, d =>
    match csvToNode r with
    | .error e => .error e
    | .ok n => csvReadRows rs (pySet d n.id n)

/-- `customs.py` `Customs.read`, consuming the archive written for the
format.  A mismatched archive shape cannot arise from the store (one file
per format) and is mapped to `ValueError`. -/
def Customs.read : FileType → Archive → Except PyErr ReadOut
  | .PICKLE, .tree t => .ok (.tn t)
  | .CSV, .rows rs => (csvReadRows rs []).map .dict
  | .MSGPACK, .dicts ds => .ok (.dict (jsonReadList ds))
  | .JSON, .dicts ds => .ok (.dict (jsonReadList ds))
  | .UJSON, .dicts ds => .ok (.dict (jsonReadList ds))
  | .SIMPLEJSON, .dicts ds => .ok (.dict (jsonReadList ds))
  | .CBOR, .dicts ds => .ok (.dict (jsonReadList ds))
  | .CBOR2, .dicts ds => .ok (.dict (jsonReadList ds))
  | .PROTOBUF, _ => .ok .noneOut
  | _, _ => .error (.valueError "archive does not match format")

/-- The id-keyed records mapping a read result yields: directly for flat
formats, and via `Customs.translate`'s `treenode` branch (`to_id_dict`)
for pickle. -/
def recordsOf : ReadOut → Option (PyDict Node)
  | .tn (some t) => some t.to_id_dict
  | .tn none => none
  | .dict d => some d
  | .noneOut => none

/-! ## Basic traversal lemmas -/

theorem nodeIterList_eq_flatten :
    ∀ ts : List TreeNode, nodeIterList ts = List.flatten (List.map TreeNode.node_iter ts) := by
  intro ts
  induction ts with
  | nil => rfl
  | cons t ts ih => simp [nodeIterList, ih]

theorem node_iter_mk (me : Node) (files : List Node) (dirs : List TreeNode) :
    (TreeNode.mk me files dirs).node_iter = me :: (files ++ nodeIterList dirs) := by
  rfl

theorem iterList_eq_flatten :
    ∀ ts : List TreeNode, iterList ts = List.flatten (List.map TreeNode.iter ts) := by
  intro ts
  induction ts with
  | nil => rfl
  | cons t ts ih => simp [iterList, ih]

/-! ## Concrete sample records

The §8 scenario: root R (id 1, no parent), file C (id 5, parent 1)
directly under root, subdirectory S (id 2, parent 1) containing files
A (id 3, parent 2) and B (id 4, parent 2). -/

/-- Build a sample record with the given id, kind tag, name and parent. -/
def mkNode (id : Nat) (tag name : String) (parent : Option Nat) : Node :=
  ⟨id, tag, name, parent, name, "", name, 0, 0, 0, 0, 0, 0, 7, 5, 5⟩

def recR : Node := mkNode 1 "Directory" "R" none
def recS : Node := mkNode 2 "Directory" "S" (some 1)
def recA : Node := mkNode 3 "File" "A" (some 2)
def recB : Node := mkNode 4 "File" "B" (some 2)
def recC : Node := mkNode 5 "File" "C" (some 1)

/-- The §8 scenario hierarchy: R owns file C and subdirectory S; S owns
files A then B. -/
def scenarioRoot : TreeNode :=
  .mk recR [recC] [.mk recS [recA, recB] []]

/-- C5: `node_iter` yields, for each node, its own record first, then its
file records in insertion order, then the full traversal of each child
subtree in insertion order; on the §8 scenario the traversal from R is
exactly R, C, S, A, B. -/
theorem C5_node_iter_order :
    (∀ (me : Node) (files : List Node) (dirs : List TreeNode),
      (TreeNode.mk me files dirs).node_iter
        = me :: (files ++ List.flatten (List.map TreeNode.node_iter dirs)))
    ∧ scenarioRoot.node_iter = [recR, recC, recS, recA, recB] := by
  constructor
  · intro me files dirs
    rw [node_iter_mk, nodeIterList_eq_flatten]
  · rfl

/-- C6 counterexample: `TreeNode.new` accepts a record whose kind is not
`Directory` — wrapping the file record A succeeds (the Python code has no
kind check), contradicting the claim that construction fails. -/
theorem C6_new_no_kind_check_cex :
    recA.is_dir = false ∧ TreeNode.new recA = .mk recA [] [] := by
  exact ⟨by decide, rfl⟩

/-- C6 amended: `TreeNode.new` wraps any record (directory or not) in a
hierarchy node with empty file and child-directory collections; it never
fails on a non-directory record. -/
theorem C6_new_empty_collections (n : Node) :
    (TreeNode.new n).me = n ∧ (TreeNode.new n).files = []
      ∧ (TreeNode.new n).dirs = [] :=
  ⟨rfl, rfl, rfl⟩

/-- C9: when constructing the `Node` for the path raises, `TreeNode.add`
catches the exception and returns `None`, leaving both the file collection
and the child-directory collection unchanged (the exception never
propagates: `add` yields a value for every outcome). -/
theorem C9_add_catches (t : TreeNode) (msg : String) :
    (t.add (.error msg)).1 = none
      ∧ (t.add (.error msg)).2.files = t.files
      ∧ (t.add (.error msg)).2.dirs = t.dirs := by
  exact ⟨rfl, rfl, rfl⟩

/-- C10: for a record with a non-empty kind tag, `is_dir` returns `true`
exactly when the tag's first character is `'D'` (so `"Dragon"` is
classified as a directory while `"File"` is not), and the result depends
on no field but the tag. -/
theorem C10_is_dir_first_char (n : Node) (c : Char) (cs : List Char)
    (h : n.tag.data = c :: cs) :
    (n.is_dir = true ↔ c = 'D')
    ∧ (∀ m : Node, m.tag = n.tag → m.is_dir = n.is_dir)
    ∧ (mkNode 9 "Dragon" "x" none).is_dir = true
    ∧ (mkNode 9 "File" "x" none).is_dir = false := by
  refine ⟨?_, ?_, by decide, by decide⟩
  · simp [Node.is_dir, h]
  · intro m hm
    simp [Node.is_dir, hm]

/-- C10 witness: the record R has tag `"Directory"`, whose first character
is `'D'`, and is classified as a directory. -/
theorem C10_witness :
    recR.tag.data = 'D' :: "irectory".data
    ∧ ((recR.is_dir = true ↔ 'D' = 'D')
        ∧ (∀ m : Node, m.tag = recR.tag → m.is_dir = recR.is_dir)
        ∧ (mkNode 9 "Dragon" "x" none).is_dir = true
        ∧ (mkNode 9 "File" "x" none).is_dir = false) :=
  ⟨rfl, C10_is_dir_first_char recR 'D' "irectory".data rfl⟩

/-! ## C4: duplicate identifiers are silently overwritten -/

/-- The last record of `L` carrying id `k`, if any. -/
def lastWithId (L : List Node) (k : Nat) : Option Node :=
  List.find? (fun n => n.id == k) L.reverse

theorem foldl_pySet_get :
    ∀ (L : List Node) (acc : PyDict Node) (k : Nat),
      pyGet (List.foldl (fun d n => pySet d n.id n) acc L) k
        = (lastWithId L k).or (pyGet acc k) := by
  intro L
  induction L with
  | nil => intro acc k; simp [lastWithId]
  | cons n L ih =>
    intro acc k
    rw [List.foldl_cons, ih]
    have hrev : lastWithId (n :: L) k
        = (lastWithId L k).or (List.find? (fun m => m.id == k) [n]) := by
      simp [lastWithId, List.find?_append]
    rw [hrev]
    cases hL : lastWithId L k with
    | some m => simp
    | none =>
      simp only [Option.or]
      by_cases hk : n.id = k
      · subst hk
        simp [pyGet_pySet_self, List.find?]
      · have : (n.id == k) = false := by simpa using hk
        simp [List.find?, this, pyGet_pySet_ne _ _ _ _ hk]

/-- C4 counterexample: two distinct records share id 5 (a directory D and
a file F).  Building the id-keyed mapping from the traversal silently keeps
only the later record F, and decoding the same two records from a flat
archive does the same — no `DuplicateIdentifier` (or any) error is raised
and the earlier record is overwritten. -/
theorem C4_duplicate_overwrite_cex :
    (mkNode 5 "Directory" "D" none ≠ mkNode 5 "File" "F" (some 5))
    ∧ (TreeNode.mk (mkNode 5 "Directory" "D" none)
        [mkNode 5 "File" "F" (some 5)] []).to_id_dict
        = [(5, mkNode 5 "File" "F" (some 5))]
    ∧ jsonReadList [mkNode 5 "Directory" "D" none, mkNode 5 "File" "F" (some 5)]
        = [(5, mkNode 5 "File" "F" (some 5))] := by
  refine ⟨by decide, by decide, by decide⟩

/-- C4 amended: duplicate identifiers are not rejected — no
`DuplicateIdentifier` check exists.  Both when building the id-keyed
mapping from a traversal (`to_id_dict`) and when decoding a flat archive
(`_json_read` and the other flat read branches), a repeated identifier
silently overwrites: the mapping holds exactly the last record seen with
each id. -/
theorem C4_duplicate_overwrite (t : TreeNode) (L : List Node) (k : Nat) :
    pyGet t.to_id_dict k = lastWithId t.node_iter k
    ∧ pyGet (jsonReadList L) k = lastWithId L k := by
  constructor
  · rw [TreeNode.to_id_dict, foldl_pySet_get]
    simp [pyGet]
  · rw [jsonReadList, foldl_pySet_get]
    simp [pyGet]

/-! ## C8: archive path convention -/

theorem FileType.value_data_inj :
    ∀ f g : FileType, f.value.data = g.value.data → f = g := by
  intro f g h
  cases f <;> cases g <;> first | rfl | exact absurd h (by decide)

/-- C8: the store resolves a (dataset, format) pair deterministically to
`./data/<format-name>/<dataset-name>.<format-extension>` (the enum value
serves as both directory name and extension); equal pairs give equal paths
and distinct formats give distinct paths for the same dataset name. -/
theorem C8_path_convention (f g : FileType) (stem : String) :
    FileType.path f stem = "./data/" ++ f.value ++ "/" ++ stem ++ "." ++ f.value
    ∧ (f = g → FileType.path f stem = FileType.path g stem)
    ∧ (f ≠ g → FileType.path f stem ≠ FileType.path g stem) := by
  refine ⟨rfl, fun h => h ▸ rfl, fun hne h => hne ?_⟩
  have hd := congrArg String.data h
  simp only [FileType.path, String.data_append, List.append_assoc] at hd
  have hlen := congrArg List.length hd
  simp only [List.length_append] at hlen
  have hvlen : f.value.data.length = g.value.data.length := by omega
  have h1 := (List.append_inj hd rfl).2
  have h2 := (List.append_inj h1 hvlen).1
  exact FileType.value_data_inj f g h2

/-- C8 witness: at the concrete pair (`case_100`, CBOR) the convention
produces `./data/CBOR/case_100.CBOR`, equal pairs agree, and the distinct
format CBOR2 yields a different path. -/
theorem C8_witness :
    FileType.path .CBOR "case_100"
      = "./data/" ++ FileType.CBOR.value ++ "/" ++ "case_100" ++ "." ++ FileType.CBOR.value
    ∧ FileType.path .CBOR "case_100" = FileType.path .CBOR "case_100"
    ∧ FileType.path .CBOR "case_100" ≠ FileType.path .CBOR2 "case_100" :=
  ⟨(C8_path_convention .CBOR .CBOR2 "case_100").1,
   (C8_path_convention .CBOR .CBOR "case_100").2.1 rfl,
   (C8_path_convention .CBOR .CBOR2 "case_100").2.2 (by decide)⟩

/-! ## Hierarchy well-formedness

The spec's Hierarchy invariants (§3): every node of the tree is a
directory record owning file records, and each record's parent identifier
agrees with the tree edge that reaches it. -/

mutual

/-- Kind consistency: every tree node wraps a directory record and its
`files` hold only non-directory records. -/
def kindsOk : TreeNode → Bool
  | .mk me files dirs =>
    me.is_dir && List.all files (fun f => !f.is_dir) && kindsOkList dirs

/-- `kindsOk` for every subtree of a list. -/
def kindsOkList : List TreeNode → Bool
  | [] => true
  | t :: ts => kindsOk t && kindsOkList ts

end

mutual

/-- Parent-link agreement: every owned file record and every child
subtree's record carries the owning directory's id as its parent id. -/
def linksOk : TreeNode → Bool
  | .mk me files dirs =>
    List.all files (fun f => f.parent_id == some me.id) && dirsLinked me.id dirs

/-- Children of the directory with id `pid`: each records `pid` as parent
and is recursively link-consistent. -/
def dirsLinked (pid : Nat) : List TreeNode → Bool
  | [] => true
  | t :: ts => (t.me.parent_id == some pid) && linksOk t && dirsLinked pid ts

end

/-! ## C7: count invariants -/

theorem foldl_count (L : List Node) :
    ∀ a b : Nat,
      List.foldl
        (fun (acc : Nat × Nat) item =>
          if item.is_dir then (acc.1 + 1, acc.2) else (acc.1, acc.2 + 1))
        (a, b) L
      = (a + (List.filter Node.is_dir L).length,
         b + (List.filter (fun n => !n.is_dir) L).length) := by
  induction L with
  | nil => intro a b; simp
  | cons n L ih =>
    intro a b
    by_cases h : n.is_dir <;>
      simp [List.filter_cons, h, ih] <;> omega

theorem length_filter_partition (L : List Node) :
    L.length = (List.filter Node.is_dir L).length
      + (List.filter (fun n => !n.is_dir) L).length := by
  induction L with
  | nil => rfl
  | cons n L ih =>
    by_cases h : n.is_dir <;> simp [List.filter_cons, h, ih] <;> omega

/-- With pairwise-distinct ids, `to_id_dict` is the traversal paired with
its ids, in traversal order. -/
theorem to_id_dict_eq (t : TreeNode)
    (hnd : (List.map Node.id t.node_iter).Nodup) :
    t.to_id_dict = List.map (fun n => (n.id, n)) t.node_iter := by
  have h := foldl_pySet_fresh (fun n : Node => n.id) (fun n => n)
    t.node_iter [] hnd (by simp [pyKeys])
  simpa [TreeNode.to_id_dict] using h

/-- Under kind consistency, the directory records of a traversal are the
`me` records of `iter`, in the same order. -/
theorem filter_is_dir_eq_iter_me :
    (∀ t : TreeNode, kindsOk t = true →
      List.filter Node.is_dir t.node_iter = List.map TreeNode.me t.iter)
    ∧ (∀ ts : List TreeNode, kindsOkList ts = true →
      List.filter Node.is_dir (nodeIterList ts) = List.map TreeNode.me (iterList ts)) := by
  apply TreeNode.ind
  · intro me files dirs ih hk
    simp only [kindsOk, Bool.and_eq_true] at hk
    obtain ⟨⟨hme, hfiles⟩, hdirs⟩ := hk
    have hf : List.filter Node.is_dir files = [] := by
      rw [List.filter_eq_nil_iff]
      intro f hf
      have := (List.all_eq_true.mp hfiles) f hf
      simpa using this
    simp [TreeNode.node_iter, TreeNode.iter, List.filter_cons, List.filter_append,
      hme, hf, ih hdirs, TreeNode.me]
  · intro _; rfl
  · intro t ts iht ihts h
    simp only [kindsOkList, Bool.and_eq_true] at h
    simp [nodeIterList, iterList, List.filter_append, iht h.1, ihts h.2]

/-- With pairwise-distinct ids and kind consistency, `to_tn_dict` is
`iter` keyed by each subtree's record id, in preorder. -/
theorem to_tn_dict_eq (t : TreeNode) (hk : kindsOk t = true)
    (hnd : (List.map Node.id t.node_iter).Nodup) :
    t.to_tn_dict = List.map (fun s => (s.me.id, s)) t.iter := by
  have hkeys : List.map (fun s : TreeNode => s.me.id) t.iter
      = List.map Node.id (List.filter Node.is_dir t.node_iter) := by
    rw [(filter_is_dir_eq_iter_me).1 t hk, List.map_map]
    rfl
  have hsub : (List.map Node.id (List.filter Node.is_dir t.node_iter)).Sublist
      (List.map Node.id t.node_iter) :=
    (List.filter_sublist _).map Node.id
  have hnd2 : (List.map (fun s : TreeNode => s.me.id) t.iter).Nodup := by
    rw [hkeys]
    exact hnd.sublist hsub
  have h := foldl_pySet_fresh (fun s : TreeNode => s.me.id) (fun s => s)
    t.iter [] hnd2 (by simp [pyKeys])
  simpa [TreeNode.to_tn_dict] using h

/-- C7: for a Hierarchy with pairwise-distinct ids holding D directory and
F file records, `node_counts` returns (D, F), the traversal has D+F
elements, `to_id_dict` has D+F entries, and `to_tn_dict` has exactly the D
directory entries (its values' records are the directory records of the
traversal, in order). -/
theorem C7_count_invariants (t : TreeNode) (hk : kindsOk t = true)
    (hnd : (List.map Node.id t.node_iter).Nodup) :
    t.node_counts = ((List.filter Node.is_dir t.node_iter).length,
                     (List.filter (fun n => !n.is_dir) t.node_iter).length)
    ∧ t.node_iter.length = (List.filter Node.is_dir t.node_iter).length
        + (List.filter (fun n => !n.is_dir) t.node_iter).length
    ∧ pyLen t.to_id_dict = t.node_iter.length
    ∧ pyLen t.to_tn_dict = (List.filter Node.is_dir t.node_iter).length
    ∧ List.map (fun kv => kv.2.me) t.to_tn_dict = List.filter Node.is_dir t.node_iter := by
  refine ⟨?_, length_filter_partition _, ?_, ?_, ?_⟩
  · rw [TreeNode.node_counts, foldl_count]
    simp
  · rw [to_id_dict_eq t hnd, pyLen, List.length_map]
  · rw [to_tn_dict_eq t hk hnd, pyLen, List.length_map,
      (filter_is_dir_eq_iter_me).1 t hk, List.length_map]
  · rw [to_tn_dict_eq t hk hnd, List.map_map, (filter_is_dir_eq_iter_me).1 t hk]
    rfl

/-- C7 witness: the §8 scenario hierarchy (2 directories, 3 files)
satisfies the hypotheses and the count invariants. -/
theorem C7_witness :
    kindsOk scenarioRoot = true
    ∧ (List.map Node.id scenarioRoot.node_iter).Nodup
    ∧ (scenarioRoot.node_counts
        = ((List.filter Node.is_dir scenarioRoot.node_iter).length,
           (List.filter (fun n => !n.is_dir) scenarioRoot.node_iter).length)
      ∧ scenarioRoot.node_iter.length
          = (List.filter Node.is_dir scenarioRoot.node_iter).length
            + (List.filter (fun n => !n.is_dir) scenarioRoot.node_iter).length
      ∧ pyLen scenarioRoot.to_id_dict = scenarioRoot.node_iter.length
      ∧ pyLen scenarioRoot.to_tn_dict
          = (List.filter Node.is_dir scenarioRoot.node_iter).length
      ∧ List.map (fun kv => kv.2.me) scenarioRoot.to_tn_dict
          = List.filter Node.is_dir scenarioRoot.node_iter) :=
  ⟨by decide, by decide, C7_count_invariants scenarioRoot (by decide) (by decide)⟩

/-! ## C1: reconstruction failure policy of Customs.translate -/

theorem pyGet_eq_none_iff {α} (d : PyDict α) (k : Nat) :
    pyGet d k = none ↔ k ∉ pyKeys d := by
  induction d with
  | nil => simp [pyGet, pyKeys]
  | cons p d ih =>
    rw [pyGet_cons]
    by_cases hp : p.1 = k
    · subst hp
      simp [pyKeys]
    · have hk : ¬ k = p.1 := fun h => hp h.symm
      simp [hp, pyKeys, hk, ih]

theorem noParent_of_none {me : Node} (h : me.parent_id = none) :
    me.noParent = true := by
  simp [Node.noParent, h]

theorem parent_some_of_not_noParent {me : Node} (h : me.noParent = false) :
    ∃ p, me.parent_id = some p ∧ p ≠ 0 := by
  cases hpid : me.parent_id with
  | none => rw [noParent_of_none hpid] at h; cases h
  | some p =>
    refine ⟨p, rfl, ?_⟩
    intro hp
    subst hp
    simp [Node.noParent, hpid] at h

theorem linkDirs_nil (shells : PyDict Shell) (root : Option Nat) :
    linkDirs [] shells root = .ok (shells, root) := rfl

theorem linkDirs_cons_root (k : Nat) (me : Node) (rest : List (Nat × Node))
    (shells : PyDict Shell) (root : Option Nat) (h : me.noParent = true) :
    linkDirs ((k, me) :: rest) shells root = linkDirs rest shells (some k) := by
  simp [linkDirs, h]

theorem linkDirs_cons_missing (k : Nat) (me : Node) (rest : List (Nat × Node))
    (shells : PyDict Shell) (root : Option Nat) (p : Nat)
    (h1 : me.noParent = false) (h2 : me.parent_id = some p)
    (h3 : pyGet shells p = none) :
    linkDirs ((k, me) :: rest) shells root = .error (.keyError (some p)) := by
  simp [linkDirs, h1, h2, h3]

theorem linkDirs_cons_found (k : Nat) (me : Node) (rest : List (Nat × Node))
    (shells : PyDict Shell) (root : Option Nat) (p : Nat) (s : Shell)
    (h1 : me.noParent = false) (h2 : me.parent_id = some p)
    (h3 : pyGet shells p = some s) :
    linkDirs ((k, me) :: rest) shells root
      = linkDirs rest (pySet shells p ⟨s.me, s.files, s.dirIds ++ [k]⟩) root := by
  simp [linkDirs, h1, h2, h3]

theorem linkFiles_nil (shells : PyDict Shell) :
    linkFiles [] shells = .ok shells := rfl

theorem linkFiles_cons_dir (k : Nat) (n : Node) (rest : List (Nat × Node))
    (shells : PyDict Shell) (h : n.is_dir = true) :
    linkFiles ((k, n) :: rest) shells = linkFiles rest shells := by
  simp [linkFiles, h]

theorem linkFiles_cons_noneParent (k : Nat) (n : Node) (rest : List (Nat × Node))
    (shells : PyDict Shell) (h1 : n.is_dir = false) (h2 : n.parent_id = none) :
    linkFiles ((k, n) :: rest) shells = .error (.keyError none) := by
  simp [linkFiles, h1, h2]

theorem linkFiles_cons_missing (k : Nat) (n : Node) (rest : List (Nat × Node))
    (shells : PyDict Shell) (p : Nat) (h1 : n.is_dir = false)
    (h2 : n.parent_id = some p) (h3 : pyGet shells p = none) :
    linkFiles ((k, n) :: rest) shells = .error (.keyError (some p)) := by
  simp [linkFiles, h1, h2, h3]

theorem linkFiles_cons_found (k : Nat) (n : Node) (rest : List (Nat × Node))
    (shells : PyDict Shell) (p : Nat) (s : Shell) (h1 : n.is_dir = false)
    (h2 : n.parent_id = some p) (h3 : pyGet shells p = some s) :
    linkFiles ((k, n) :: rest) shells
      = linkFiles rest (pySet shells p ⟨s.me, s.files ++ [n], s.dirIds⟩) := by
  simp [linkFiles, h1, h2, h3]

/-- Keys of the shell dict are unchanged by a successful dir-linking pass
(only existing entries are updated). -/
theorem linkDirs_keys :
    ∀ (items : List (Nat × Node)) (shells : PyDict Shell) (root : Option Nat)
      (out : PyDict Shell × Option Nat),
      linkDirs items shells root = .ok out → pyKeys out.1 = pyKeys shells := by
  intro items
  induction items with
  | nil =>
    intro shells root out h
    rw [linkDirs_nil] at h
    cases h
    rfl
  | cons kme rest ih =>
    intro shells root out h
    obtain ⟨k, me⟩ := kme
    by_cases hnp : me.noParent
    · rw [linkDirs_cons_root _ _ _ _ _ hnp] at h
      exact ih _ _ _ h
    · rw [Bool.not_eq_true] at hnp
      obtain ⟨p, hpid, -⟩ := parent_some_of_not_noParent hnp
      cases hg : pyGet shells p with
      | none =>
        rw [linkDirs_cons_missing _ _ _ _ _ _ hnp hpid hg] at h
        cases h
      | some s =>
        rw [linkDirs_cons_found _ _ _ _ _ _ _ hnp hpid hg] at h
        have hmem : p ∈ pyKeys shells := by
          by_contra hc
          rw [(pyGet_eq_none_iff shells p).mpr hc] at hg
          cases hg
        have := ih _ _ _ h
        rwa [pyKeys_pySet_of_mem _ _ _ hmem] at this

/-- Every error a dir-linking pass raises is a `KeyError` carrying a parent
identifier of one of the processed records that is not a key of the shell
dict. -/
theorem linkDirs_err :
    ∀ (items : List (Nat × Node)) (shells : PyDict Shell) (root : Option Nat)
      (e : PyErr), linkDirs items shells root = .error e →
      ∃ kme p, kme ∈ items ∧ (kme.2 : Node).parent_id = some p
        ∧ e = .keyError (some p) ∧ p ∉ pyKeys shells := by
  intro items
  induction items with
  | nil => intro shells root e h; rw [linkDirs_nil] at h; cases h
  | cons kme rest ih =>
    intro shells root e h
    obtain ⟨k, me⟩ := kme
    by_cases hnp : me.noParent
    · rw [linkDirs_cons_root _ _ _ _ _ hnp] at h
      obtain ⟨kme2, p, hmem, hpid, he, hkey⟩ := ih _ _ _ h
      exact ⟨kme2, p, List.mem_cons_of_mem _ hmem, hpid, he, hkey⟩
    · rw [Bool.not_eq_true] at hnp
      obtain ⟨p, hpid, -⟩ := parent_some_of_not_noParent hnp
      cases hg : pyGet shells p with
      | none =>
        rw [linkDirs_cons_missing _ _ _ _ _ _ hnp hpid hg] at h
        cases h
        exact ⟨(k, me), p, List.mem_cons_self _ _, hpid, rfl,
          (pyGet_eq_none_iff shells p).mp hg⟩
      | some s =>
        rw [linkDirs_cons_found _ _ _ _ _ _ _ hnp hpid hg] at h
        have hmem : p ∈ pyKeys shells := by
          by_contra hc
          rw [(pyGet_eq_none_iff shells p).mpr hc] at hg
          cases hg
        obtain ⟨kme2, q, hmem2, hpid2, he, hkey⟩ := ih _ _ _ h
        rw [pyKeys_pySet_of_mem _ _ _ hmem] at hkey
        exact ⟨kme2, q, List.mem_cons_of_mem _ hmem2, hpid2, he, hkey⟩

/-- Every error the file-linking pass raises is a `KeyError` carrying the
parent identifier of one of the processed file records — either `None` or
an id that is not a key of the shell dict. -/
theorem linkFiles_err :
    ∀ (items : List (Nat × Node)) (shells : PyDict Shell) (e : PyErr),
      linkFiles items shells = .error e →
      ∃ kn, kn ∈ items ∧ (kn.2 : Node).is_dir = false
        ∧ e = .keyError (kn.2 : Node).parent_id
        ∧ ∀ p, (kn.2 : Node).parent_id = some p → p ∉ pyKeys shells := by
  intro items
  induction items with
  | nil => intro shells e h; rw [linkFiles_nil] at h; cases h
  | cons kn rest ih =>
    intro shells e h
    obtain ⟨k, n⟩ := kn
    by_cases hd : n.is_dir
    · rw [linkFiles_cons_dir _ _ _ _ hd] at h
      obtain ⟨kn2, hmem, h1, h2, h3⟩ := ih _ _ h
      exact ⟨kn2, List.mem_cons_of_mem _ hmem, h1, h2, h3⟩
    · rw [Bool.not_eq_true] at hd
      cases hpid : n.parent_id with
      | none =>
        rw [linkFiles_cons_noneParent _ _ _ _ hd hpid] at h
        cases h
        refine ⟨(k, n), List.mem_cons_self _ _, hd, by rw [hpid], ?_⟩
        intro p hp
        rw [hpid] at hp
        cases hp
      | some p =>
        cases hg : pyGet shells p with
        | none =>
          rw [linkFiles_cons_missing _ _ _ _ _ hd hpid hg] at h
          cases h
          refine ⟨(k, n), List.mem_cons_self _ _, hd, by rw [hpid], ?_⟩
          intro q hq
          rw [hpid] at hq
          cases hq
          exact (pyGet_eq_none_iff shells p).mp hg
        | some s =>
          rw [linkFiles_cons_found _ _ _ _ _ _ hd hpid hg] at h
          have hmem : p ∈ pyKeys shells := by
            by_contra hc
            rw [(pyGet_eq_none_iff shells p).mpr hc] at hg
            cases hg
          obtain ⟨kn2, hmem2, h1, h2, h3⟩ := ih _ _ h
          refine ⟨kn2, List.mem_cons_of_mem _ hmem2, h1, h2, ?_⟩
          intro q hq
          have := h3 q hq
          rwa [pyKeys_pySet_of_mem _ _ _ hmem] at this

/-- The evolution of `self.treenode` over the dir-linking pass: the last
parentless record's key wins. -/
def rootFold (items : List (Nat × Node)) (root : Option Nat) : Option Nat :=
  List.foldl (fun r kme => if (kme.2 : Node).noParent then some kme.1 else r) root items

/-- The keys the dir-linking pass appends to the shell at key `q`: the
processed non-root records whose parent id is `q`, in order. -/
def childKeys (items : List (Nat × Node)) (q : Nat) : List Nat :=
  List.map Prod.fst
    (List.filter
      (fun kme => !(kme.2 : Node).noParent && ((kme.2 : Node).parent_id == some q)) items)

/-- The records the file-linking pass appends to the shell at key `q`: the
processed file records whose parent id is `q`, in order. -/
def fileChildren (items : List (Nat × Node)) (q : Nat) : List Node :=
  List.map Prod.snd
    (List.filter
      (fun kn => !(kn.2 : Node).is_dir && ((kn.2 : Node).parent_id == some q)) items)

theorem rootFold_cons (k : Nat) (me : Node) (rest : List (Nat × Node))
    (root : Option Nat) :
    rootFold ((k, me) :: rest) root
      = rootFold rest (if me.noParent then some k else root) := by
  simp [rootFold]

/-- When every processed record is parentless or has a parent id among the
shell keys, the dir-linking pass succeeds; the root is the last parentless
record's key, the keys are unchanged, and each shell's `dirs` receives
exactly its children's keys, in processing order. -/
theorem linkDirs_ok :
    ∀ (items : List (Nat × Node)) (shells : PyDict Shell) (root : Option Nat),
      (∀ kme ∈ items, (kme.2 : Node).noParent = true
        ∨ ∃ p, (kme.2 : Node).parent_id = some p ∧ p ∈ pyKeys shells) →
      ∃ shells2, linkDirs items shells root = .ok (shells2, rootFold items root)
        ∧ pyKeys shells2 = pyKeys shells
        ∧ ∀ q, pyGet shells2 q
            = Option.map (fun s => ⟨s.me, s.files, s.dirIds ++ childKeys items q⟩)
                (pyGet shells q) := by
  intro items
  induction items with
  | nil =>
    intro shells root _
    refine ⟨shells, linkDirs_nil shells root, rfl, ?_⟩
    intro q
    cases pyGet shells q <;> simp [childKeys]
  | cons kme rest ih =>
    intro shells root hres
    obtain ⟨k, me⟩ := kme
    by_cases hnp : me.noParent
    · obtain ⟨shells2, heq, hkeys, hget⟩ :=
        ih shells (some k) (fun kme2 hm => hres kme2 (List.mem_cons_of_mem _ hm))
      refine ⟨shells2, ?_, hkeys, ?_⟩
      · rw [linkDirs_cons_root _ _ _ _ _ hnp, heq, rootFold_cons, if_pos hnp]
      · intro q
        rw [hget q]
        have hck : childKeys ((k, me) :: rest) q = childKeys rest q := by
          simp [childKeys, List.filter_cons, hnp]
        rw [hck]
    · rw [Bool.not_eq_true] at hnp
      obtain ⟨p, hpid, -⟩ := parent_some_of_not_noParent hnp
      have hp : p ∈ pyKeys shells := by
        rcases hres (k, me) (List.mem_cons_self _ _) with h | ⟨p2, hp2, hmem2⟩
        · rw [h] at hnp; cases hnp
        · rw [hpid] at hp2; cases hp2; exact hmem2
      obtain ⟨s, hg⟩ : ∃ s, pyGet shells p = some s := by
        cases hgg : pyGet shells p with
        | none => exact absurd ((pyGet_eq_none_iff shells p).mp hgg) (not_not.mpr hp)
        | some s => exact ⟨s, rfl⟩
      have hres2 : ∀ kme2 ∈ rest, (kme2.2 : Node).noParent = true
          ∨ ∃ p2, (kme2.2 : Node).parent_id = some p2
              ∧ p2 ∈ pyKeys (pySet shells p ⟨s.me, s.files, s.dirIds ++ [k]⟩) := by
        intro kme2 hm
        rw [pyKeys_pySet_of_mem _ _ _ hp]
        exact hres kme2 (List.mem_cons_of_mem _ hm)
      obtain ⟨shells2, heq, hkeys, hget⟩ :=
        ih (pySet shells p ⟨s.me, s.files, s.dirIds ++ [k]⟩) root hres2
      refine ⟨shells2, ?_, ?_, ?_⟩
      · rw [linkDirs_cons_found _ _ _ _ _ _ _ hnp hpid hg, heq, rootFold_cons]
        simp [hnp]
      · rw [hkeys, pyKeys_pySet_of_mem _ _ _ hp]
      · intro q
        rw [hget q]
        by_cases hq : p = q
        · subst hq
          rw [pyGet_pySet_self, hg]
          have hck : childKeys ((k, me) :: rest) p = k :: childKeys rest p := by
            simp [childKeys, List.filter_cons, hnp, hpid]
          rw [hck]
          simp
        · rw [pyGet_pySet_ne _ _ _ _ hq]
          have hck : childKeys ((k, me) :: rest) q = childKeys rest q := by
            have hbe : ((me.parent_id == some q) : Bool) = false := by
              rw [hpid, beq_eq_false_iff_ne]
              intro hc
              exact hq (Option.some.inj hc)
            simp [childKeys, List.filter_cons, hbe]
          rw [hck]

/-- When every processed file record's parent id is among the shell keys,
the file-linking pass succeeds; the keys are unchanged and each shell's
`files` receives exactly its file children, in processing order. -/
theorem linkFiles_ok :
    ∀ (items : List (Nat × Node)) (shells : PyDict Shell),
      (∀ kn ∈ items, (kn.2 : Node).is_dir = false →
        ∃ p, (kn.2 : Node).parent_id = some p ∧ p ∈ pyKeys shells) →
      ∃ shells2, linkFiles items shells = .ok shells2
        ∧ pyKeys shells2 = pyKeys shells
        ∧ ∀ q, pyGet shells2 q
            = Option.map (fun s => ⟨s.me, s.files ++ fileChildren items q, s.dirIds⟩)
                (pyGet shells q) := by
  intro items
  induction items with
  | nil =>
    intro shells _
    refine ⟨shells, linkFiles_nil shells, rfl, ?_⟩
    intro q
    cases pyGet shells q <;> simp [fileChildren]
  | cons kn rest ih =>
    intro shells hres
    obtain ⟨k, n⟩ := kn
    by_cases hd : n.is_dir
    · obtain ⟨shells2, heq, hkeys, hget⟩ :=
        ih shells (fun kn2 hm => hres kn2 (List.mem_cons_of_mem _ hm))
      refine ⟨shells2, ?_, hkeys, ?_⟩
      · rw [linkFiles_cons_dir _ _ _ _ hd, heq]
      · intro q
        rw [hget q]
        have hfc : fileChildren ((k, n) :: rest) q = fileChildren rest q := by
          simp [fileChildren, List.filter_cons, hd]
        rw [hfc]
    · rw [Bool.not_eq_true] at hd
      obtain ⟨p, hpid0, hp⟩ := hres (k, n) (List.mem_cons_self _ _) hd
      have hpid : n.parent_id = some p := hpid0
      obtain ⟨s, hg⟩ : ∃ s, pyGet shells p = some s := by
        cases hgg : pyGet shells p with
        | none => exact absurd ((pyGet_eq_none_iff shells p).mp hgg) (not_not.mpr hp)
        | some s => exact ⟨s, rfl⟩
      have hres2 : ∀ kn2 ∈ rest, (kn2.2 : Node).is_dir = false →
          ∃ p2, (kn2.2 : Node).parent_id = some p2
            ∧ p2 ∈ pyKeys (pySet shells p ⟨s.me, s.files ++ [n], s.dirIds⟩) := by
        intro kn2 hm hd2
        rw [pyKeys_pySet_of_mem _ _ _ hp]
        exact hres kn2 (List.mem_cons_of_mem _ hm) hd2
      obtain ⟨shells2, heq, hkeys, hget⟩ :=
        ih (pySet shells p ⟨s.me, s.files ++ [n], s.dirIds⟩) hres2
      refine ⟨shells2, ?_, ?_, ?_⟩
      · rw [linkFiles_cons_found _ _ _ _ _ _ hd hpid hg, heq]
      · rw [hkeys, pyKeys_pySet_of_mem _ _ _ hp]
      · intro q
        rw [hget q]
        by_cases hq : p = q
        · subst hq
          rw [pyGet_pySet_self, hg]
          have hfc : fileChildren ((k, n) :: rest) p = n :: fileChildren rest p := by
            simp [fileChildren, List.filter_cons, hd, hpid]
          rw [hfc]
          simp
        · rw [pyGet_pySet_ne _ _ _ _ hq]
          have hfc : fileChildren ((k, n) :: rest) q = fileChildren rest q := by
            have hbe : ((n.parent_id == some q) : Bool) = false := by
              rw [hpid, beq_eq_false_iff_ne]
              intro hc
              exact hq (Option.some.inj hc)
            simp [fileChildren, List.filter_cons, hbe]
          rw [hfc]

theorem getLast?_cons_or {β : Type _} :
    ∀ (l : List β) (x : β), List.getLast? (x :: l) = (List.getLast? l).or (some x) := by
  intro l
  induction l with
  | nil => intro x; rfl
  | cons y l ih =>
    intro x
    rw [List.getLast?_cons_cons, ih y]
    cases hyl : List.getLast? l <;> simp

theorem rootFold_eq :
    ∀ (items : List (Nat × Node)) (root : Option Nat),
      rootFold items root
        = (List.getLast? (List.map Prod.fst
            (List.filter (fun kme => (kme.2 : Node).noParent) items))).or root := by
  intro items
  induction items with
  | nil => intro root; simp [rootFold]
  | cons kme rest ih =>
    intro root
    obtain ⟨k, me⟩ := kme
    rw [rootFold_cons]
    by_cases hnp : me.noParent
    · rw [if_pos hnp, ih]
      have : List.filter (fun kme => (kme.2 : Node).noParent) ((k, me) :: rest)
          = (k, me) :: List.filter (fun kme => (kme.2 : Node).noParent) rest := by
        simp [List.filter_cons, hnp]
      rw [this, List.map_cons, getLast?_cons_or, Option.or_assoc]
      simp
    · rw [if_neg (by simp [hnp]), ih]
      have : List.filter (fun kme => (kme.2 : Node).noParent) ((k, me) :: rest)
          = List.filter (fun kme => (kme.2 : Node).noParent) rest := by
        simp [List.filter_cons, hnp]
      rw [this]

/-- With distinct dict keys, shelling appends one `(key, shell)` pair per
directory record, in order. -/
theorem buildShells_eq (d : PyDict Node) (hkeys : (pyKeys d).Nodup) :
    buildShells d
      = List.map (fun kv => (kv.1, (⟨kv.2, [], []⟩ : Shell)))
          (List.filter (fun kv => (kv.2 : Node).is_dir) d) := by
  have hnd : (List.map Prod.fst
      (List.filter (fun kv : Nat × Node => (kv.2 : Node).is_dir) d)).Nodup :=
    hkeys.sublist ((List.filter_sublist d).map Prod.fst)
  have h1 := foldl_if_filter (fun kv : Nat × Node => (kv.2 : Node).is_dir)
    (fun acc kv => pySet acc kv.1 (⟨kv.2, [], []⟩ : Shell)) d []
  have h2 := foldl_pySet_fresh Prod.fst (fun kv : Nat × Node => (⟨kv.2, [], []⟩ : Shell))
    (List.filter (fun kv : Nat × Node => (kv.2 : Node).is_dir) d) [] hnd
    (by simp [pyKeys])
  have h3 : buildShells d
      = [] ++ List.map (fun kv : Nat × Node => (kv.1, (⟨kv.2, [], []⟩ : Shell)))
          (List.filter (fun kv : Nat × Node => (kv.2 : Node).is_dir) d) :=
    h1.trans h2
  simpa using h3

theorem shellItems_buildShells (d : PyDict Node) (hkeys : (pyKeys d).Nodup) :
    shellItems (buildShells d) = List.filter (fun kv => (kv.2 : Node).is_dir) d := by
  rw [buildShells_eq d hkeys, shellItems, List.map_map]
  have : ((fun kv : Nat × Shell => (kv.1, kv.2.me))
      ∘ (fun kv : Nat × Node => (kv.1, (⟨kv.2, [], []⟩ : Shell))))
      = fun kv : Nat × Node => (kv.1, kv.2) := rfl
  rw [this]
  simp

theorem pyKeys_buildShells (d : PyDict Node) (hkeys : (pyKeys d).Nodup) :
    pyKeys (buildShells d)
      = List.map Prod.fst (List.filter (fun kv => (kv.2 : Node).is_dir) d) := by
  rw [buildShells_eq d hkeys, pyKeys, List.map_map]
  rfl

/-- The key of the last entry of the dict whose record is a parentless
(`None`/`0`) directory, if any: the record `Customs.translate` leaves as
the root. -/
def lastRootKey (d : PyDict Node) : Option Nat :=
  List.getLast? (List.map Prod.fst
    (List.filter
      (fun kv => (kv.2 : Node).noParent && (kv.2 : Node).is_dir) d))

theorem isEmpty_false_of_ne_nil {α} {d : List α} (h : d ≠ []) :
    d.isEmpty = false := by
  cases d with
  | nil => exact absurd rfl h
  | cons x l => rfl

theorem translate_none_ok (d : PyDict Node) (hne : d ≠ [])
    (shells1 : PyDict Shell) (root : Option Nat) (shells2 : PyDict Shell)
    (h1 : linkDirs (shellItems (buildShells d)) (buildShells d) none
      = .ok (shells1, root))
    (h2 : linkFiles d shells1 = .ok shells2) :
    Customs.translate none d = .ok (.fromDict root shells2) := by
  simp [Customs.translate, isEmpty_false_of_ne_nil hne, h1, h2]

theorem translate_none_err_dirs (d : PyDict Node) (hne : d ≠ []) (e : PyErr)
    (h1 : linkDirs (shellItems (buildShells d)) (buildShells d) none = .error e) :
    Customs.translate none d = .error e := by
  simp [Customs.translate, isEmpty_false_of_ne_nil hne, h1]

theorem translate_none_err_files (d : PyDict Node) (hne : d ≠ [])
    (shells1 : PyDict Shell) (root : Option Nat) (e : PyErr)
    (h1 : linkDirs (shellItems (buildShells d)) (buildShells d) none
      = .ok (shells1, root))
    (h2 : linkFiles d shells1 = .error e) :
    Customs.translate none d = .error e := by
  simp [Customs.translate, isEmpty_false_of_ne_nil hne, h1, h2]

/-- A record is resolvable against the directory-key set when it is a
parentless directory or its parent id is a directory key (for files the
parent id must be a present directory key). -/
def resolvable (dirKeys : List Nat) (n : Node) : Bool :=
  if n.is_dir then
    n.noParent ||
      (match n.parent_id with
       | some p => List.contains dirKeys p
       | none => false)
  else
    match n.parent_id with
    | some p => List.contains dirKeys p
    | none => false

/-- C1 amended: reconstruction from a flat index raises no
`MissingParent`/`MultipleRoots`/`NoRoot` errors.  (1) Any error
`Customs.translate` raises is a `KeyError` carrying the parent identifier
of some record of the index — an identifier (possibly `None`) that matches
no directory key; an unresolvable parent is thus detected, but as a bare
`KeyError` naming the missing parent.  (2) When every record resolves
(parentless directories included), translation succeeds with no error
regardless of how many records lack a parent: the root is the *last*
parentless directory entry, and `none` when no record lacks a parent. -/
theorem C1_translate_error_policy (d : PyDict Node) (hne : d ≠ [])
    (hkeys : (pyKeys d).Nodup) :
    (∀ e, Customs.translate none d = .error e →
      ∃ op, e = .keyError op
        ∧ (∃ kv, kv ∈ d ∧ (kv.2 : Node).parent_id = op)
        ∧ ∀ p, op = some p → p ∉ pyKeys (buildShells d))
    ∧ ((∀ kv ∈ d, resolvable (pyKeys (buildShells d)) kv.2 = true) →
      ∃ shells, Customs.translate none d = .ok (.fromDict (lastRootKey d) shells)) := by
  constructor
  · intro e he
    cases hld : linkDirs (shellItems (buildShells d)) (buildShells d) none with
    | error e2 =>
      have ht := translate_none_err_dirs d hne e2 hld
      rw [ht] at he
      cases he
      obtain ⟨kme, p, hmem, hpid, he2, hkey⟩ := linkDirs_err _ _ _ _ hld
      rw [shellItems_buildShells d hkeys] at hmem
      refine ⟨some p, he2, ⟨kme, List.mem_of_mem_filter hmem, hpid⟩, ?_⟩
      intro q hq
      cases hq
      exact hkey
    | ok pr =>
      obtain ⟨shells1, root⟩ := pr
      cases hlf : linkFiles d shells1 with
      | error e2 =>
        have ht := translate_none_err_files d hne shells1 root e2 hld hlf
        rw [ht] at he
        cases he
        obtain ⟨kn, hmem, hdir, he2, hkeymiss⟩ := linkFiles_err _ _ _ hlf
        refine ⟨(kn.2 : Node).parent_id, he2, ⟨kn, hmem, rfl⟩, ?_⟩
        intro q hq
        have hk := hkeymiss q hq
        have := linkDirs_keys _ _ _ _ hld
        rwa [this] at hk
      | ok shells2 =>
        have ht := translate_none_ok d hne shells1 root shells2 hld hlf
        rw [ht] at he
        cases he
  · intro hres
    have hitems := shellItems_buildShells d hkeys
    have hhyp : ∀ kme ∈ shellItems (buildShells d), (kme.2 : Node).noParent = true
        ∨ ∃ p, (kme.2 : Node).parent_id = some p ∧ p ∈ pyKeys (buildShells d) := by
      intro kme hm
      rw [hitems] at hm
      have hin : kme ∈ d := List.mem_of_mem_filter hm
      have hdir : (kme.2 : Node).is_dir = true := by
        have := List.of_mem_filter hm
        simpa using this
      have hr := hres kme hin
      rw [resolvable, if_pos hdir] at hr
      rcases Bool.or_eq_true_iff.mp hr with h | h
      · exact Or.inl h
      · cases hpid : (kme.2 : Node).parent_id with
        | none => rw [hpid] at h; cases h
        | some p =>
          rw [hpid] at h
          refine Or.inr ⟨p, rfl, ?_⟩
          simpa using h
    obtain ⟨shells1, hld, hkeys1, -⟩ :=
      linkDirs_ok (shellItems (buildShells d)) (buildShells d) none hhyp
    have hroot : rootFold (shellItems (buildShells d)) none = lastRootKey d := by
      rw [rootFold_eq, Option.or_none, hitems, lastRootKey, List.filter_filter]
    rw [hroot] at hld
    have hhyp2 : ∀ kn ∈ d, (kn.2 : Node).is_dir = false →
        ∃ p, (kn.2 : Node).parent_id = some p ∧ p ∈ pyKeys shells1 := by
      intro kn hin hdir
      have hr := hres kn hin
      rw [resolvable, if_neg (by simp [hdir])] at hr
      cases hpid : (kn.2 : Node).parent_id with
      | none => rw [hpid] at hr; cases hr
      | some p =>
        rw [hpid] at hr
        refine ⟨p, rfl, ?_⟩
        rw [hkeys1]
        simpa using hr
    obtain ⟨shells2, hlf, -, -⟩ := linkFiles_ok d shells1 hhyp2
    exact ⟨shells2, translate_none_ok d hne shells1 (lastRootKey d) shells2 hld hlf⟩

/-- C1 witness: on the (resolvable) §8 scenario index the theorem applies —
any raised error would be a `KeyError` naming an unresolvable parent id,
and since every record resolves, translation succeeds with root R (the
only parentless directory, key 1). -/
theorem C1_witness :
    ([(1, recR), (2, recS), (3, recA), (4, recB), (5, recC)] ≠ ([] : PyDict Node))
    ∧ (pyKeys [(1, recR), (2, recS), (3, recA), (4, recB), (5, recC)]).Nodup
    ∧ ((∀ e, Customs.translate none [(1, recR), (2, recS), (3, recA), (4, recB), (5, recC)] = .error e →
        ∃ op, e = .keyError op
          ∧ (∃ kv, kv ∈ [(1, recR), (2, recS), (3, recA), (4, recB), (5, recC)]
              ∧ (kv.2 : Node).parent_id = op)
          ∧ ∀ p, op = some p
              → p ∉ pyKeys (buildShells [(1, recR), (2, recS), (3, recA), (4, recB), (5, recC)]))
      ∧ ((∀ kv ∈ [(1, recR), (2, recS), (3, recA), (4, recB), (5, recC)],
          resolvable (pyKeys (buildShells [(1, recR), (2, recS), (3, recA), (4, recB), (5, recC)])) kv.2 = true) →
        ∃ shells, Customs.translate none [(1, recR), (2, recS), (3, recA), (4, recB), (5, recC)]
          = .ok (.fromDict (lastRootKey [(1, recR), (2, recS), (3, recA), (4, recB), (5, recC)]) shells))) :=
  ⟨by decide, by decide,
   C1_translate_error_policy [(1, recR), (2, recS), (3, recA), (4, recB), (5, recC)]
     (by decide) (by decide)⟩

/-- A flat index with two parentless directory records (two roots). -/
def twoRootsDict : PyDict Node :=
  [(1, mkNode 1 "Directory" "R1" none), (2, mkNode 2 "Directory" "R2" none)]

/-- C1 counterexample: the claim says an index in which more than one
record has no parent fails with a `MultipleRoots` error; on `twoRootsDict`
(both records parentless) `Customs.translate` raises nothing and succeeds,
silently keeping the last parentless record (key 2) as the root. -/
theorem C1_no_multiple_roots_error_cex :
    (List.filter (fun kv => (kv.2 : Node).noParent) twoRootsDict).length = 2
    ∧ Customs.translate none twoRootsDict
        = .ok (.fromDict (some 2)
            [(1, ⟨mkNode 1 "Directory" "R1" none, [], []⟩),
             (2, ⟨mkNode 2 "Directory" "R2" none, [], []⟩)]) :=
  ⟨by decide, by rfl⟩

/-! ## C2: per-adapter round trips -/

theorem natToStrAux_eq_digits :
    ∀ (fuel n : Nat) (acc : List Char), n < fuel → 0 < n →
      natToStrAux fuel n acc
        = List.map digitChar (List.reverse (Nat.digits 10 n)) ++ acc := by
  intro fuel
  induction fuel with
  | zero => intro n acc h _; exact absurd h (Nat.not_lt_zero n)
  | succ fuel ih =>
    intro n acc h hn
    rw [natToStrAux]
    by_cases h10 : n < 10
    · rw [if_pos h10]
      have hd : Nat.digits 10 n = [n] := by
        rw [Nat.digits_def' (by norm_num : (1 : Nat) < 10) hn]
        rw [Nat.mod_eq_of_lt h10, Nat.div_eq_of_lt h10]
        simp
      rw [hd]
      simp
    · rw [if_neg h10]
      have hdiv : 0 < n / 10 := Nat.div_pos (Nat.le_of_not_lt h10) (by norm_num)
      have hlt : n / 10 < fuel := by
        have h1 : n / 10 < n := Nat.div_lt_self hn (by norm_num)
        omega
      rw [ih (n / 10) (digitChar (n % 10) :: acc) hlt hdiv]
      rw [Nat.digits_def' (by norm_num : (1 : Nat) < 10) hn]
      simp [List.append_assoc]

theorem charDigit_digitChar (d : Nat) (h : d < 10) :
    charDigit? (digitChar d) = some d := by
  interval_cases d <;> decide

theorem digitsOf_map_digitChar :
    ∀ (l : List Nat), (∀ d ∈ l, d < 10) → digitsOf (List.map digitChar l) = some l := by
  intro l
  induction l with
  | nil => intro _; rfl
  | cons d l ih =>
    intro h
    rw [List.map_cons, digitsOf, charDigit_digitChar d (h d (List.mem_cons_self d l)),
      ih (fun d2 hd2 => h d2 (List.mem_cons_of_mem d hd2))]

/-- `int(str(n)) == n` for the decimal strings the csv writer produces. -/
theorem natParse_natToStr (n : Nat) : natParse? (natToStr n) = some n := by
  by_cases h : n = 0
  · subst h; decide
  · have hpos : 0 < n := Nat.pos_of_ne_zero h
    have hdata : (natToStr n).data
        = List.map digitChar (List.reverse (Nat.digits 10 n)) := by
      rw [natToStr]
      show natToStrAux (n + 1) n [] = _
      rw [natToStrAux_eq_digits (n + 1) n [] (Nat.lt_succ_self n) hpos]
      simp
    have hne : (natToStr n).data ≠ [] := by
      rw [hdata]
      simp [Nat.digits_ne_nil_iff_ne_zero, h]
    rw [natParse?, if_neg (by rw [isEmpty_false_of_ne_nil hne]; exact Bool.false_ne_true),
      hdata]
    rw [digitsOf_map_digitChar _ (fun d hd => Nat.digits_lt_base (by norm_num)
      (List.mem_reverse.mp hd))]
    simp [Nat.ofDigits_digits]

/-- A record whose parent id is present survives the csv string round trip
exactly. -/
theorem csvToNode_nodeToCsv (n : Node) (p : Nat) (hp : n.parent_id = some p) :
    csvToNode (nodeToCsv n) = .ok n := by
  have hn : n = ⟨n.id, n.tag, n.name, some p, n.stem, n.extension, n.path, n.size,
      n.owner, n.group, n.created, n.accessed, n.modified, n.owner_perm,
      n.group_perm, n.other_perm⟩ := by
    cases n
    simp_all
  rw [hn]
  simp only [csvToNode, nodeToCsv, pyInt, optToStr, natParse_natToStr]
  rfl

theorem csvReadRows_map (L : List Node)
    (hp : ∀ n ∈ L, ∃ p, n.parent_id = some p) :
    ∀ acc, csvReadRows (List.map nodeToCsv L) acc
      = .ok (List.foldl (fun d n => pySet d n.id n) acc L) := by
  induction L with
  | nil => intro acc; rfl
  | cons n L ih =>
    intro acc
    obtain ⟨p, hpid⟩ := hp n (List.mem_cons_self n L)
    rw [List.map_cons, csvReadRows, csvToNode_nodeToCsv n p hpid]
    exact ih (fun m hm => hp m (List.mem_cons_of_mem n hm)) (pySet acc n.id n)

theorem pyValues_to_id_dict (H : TreeNode)
    (hnd : (List.map Node.id H.node_iter).Nodup) :
    pyValues H.to_id_dict = H.node_iter := by
  rw [to_id_dict_eq H hnd, pyValues, List.map_map]
  show List.map (fun n : Node => n) H.node_iter = H.node_iter
  exact List.map_id _

/-- C2 amended: for every implemented codec adapter (every `FileType` with
a branch in both `Customs.write` and `Customs.read` — all but PROTOBUF) and
every dataset with pairwise-distinct ids *whose records all carry a present
parent identifier*, writing and reading back yields an id-keyed records
mapping equal, as a set of records, to the original dataset.  (The
present-parent proviso is forced by the csv adapter: `csv` renders a `None`
parent as an empty cell and `int('')` raises on read — see the
counterexample.) -/
theorem C2_roundtrip (H : TreeNode) (ft : FileType)
    (himpl : ft ≠ .PROTOBUF)
    (hnd : (List.map Node.id H.node_iter).Nodup)
    (hpar : ∀ n ∈ H.node_iter, (n.parent_id).isSome = true) :
    ∃ ar out m, Customs.write (some H) H.to_id_dict ft = some ar
      ∧ Customs.read ft ar = .ok out
      ∧ recordsOf out = some m
      ∧ ∀ n : Node, n ∈ pyValues m ↔ n ∈ H.node_iter := by
  have hpar2 : ∀ n ∈ H.node_iter, ∃ p, n.parent_id = some p :=
    fun n hn => Option.isSome_iff_exists.mp (hpar n hn)
  have hvals : pyValues H.to_id_dict = H.node_iter := pyValues_to_id_dict H hnd
  cases ft with
  | PROTOBUF => exact absurd rfl himpl
  | PICKLE =>
    refine ⟨.tree (some H), .tn (some H), H.to_id_dict, rfl, rfl, rfl, ?_⟩
    intro n
    rw [hvals]
  | CSV =>
    refine ⟨.rows (List.map nodeToCsv H.node_iter), .dict H.to_id_dict,
      H.to_id_dict, rfl, ?_, rfl, ?_⟩
    · show (csvReadRows (List.map nodeToCsv H.node_iter) []).map ReadOut.dict = _
      rw [csvReadRows_map H.node_iter hpar2 []]
      rfl
    · intro n
      rw [hvals]
  | MSGPACK =>
    refine ⟨.dicts (pyValues H.to_id_dict), .dict (jsonReadList (pyValues H.to_id_dict)),
      jsonReadList (pyValues H.to_id_dict), rfl, rfl, rfl, ?_⟩
    intro n
    rw [hvals]
    show n ∈ pyValues H.to_id_dict ↔ _
    rw [hvals]
  | JSON =>
    refine ⟨.dicts (pyValues H.to_id_dict), .dict (jsonReadList (pyValues H.to_id_dict)),
      jsonReadList (pyValues H.to_id_dict), rfl, rfl, rfl, ?_⟩
    intro n
    rw [hvals]
    show n ∈ pyValues H.to_id_dict ↔ _
    rw [hvals]
  | UJSON =>
    refine ⟨.dicts (pyValues H.to_id_dict), .dict (jsonReadList (pyValues H.to_id_dict)),
      jsonReadList (pyValues H.to_id_dict), rfl, rfl, rfl, ?_⟩
    intro n
    rw [hvals]
    show n ∈ pyValues H.to_id_dict ↔ _
    rw [hvals]
  | SIMPLEJSON =>
    refine ⟨.dicts (pyValues H.to_id_dict), .dict (jsonReadList (pyValues H.to_id_dict)),
      jsonReadList (pyValues H.to_id_dict), rfl, rfl, rfl, ?_⟩
    intro n
    rw [hvals]
    show n ∈ pyValues H.to_id_dict ↔ _
    rw [hvals]
  | CBOR =>
    refine ⟨.dicts (pyValues H.to_id_dict), .dict (jsonReadList (pyValues H.to_id_dict)),
      jsonReadList (pyValues H.to_id_dict), rfl, rfl, rfl, ?_⟩
    intro n
    rw [hvals]
    show n ∈ pyValues H.to_id_dict ↔ _
    rw [hvals]
  | CBOR2 =>
    refine ⟨.dicts (pyValues H.to_id_dict), .dict (jsonReadList (pyValues H.to_id_dict)),
      jsonReadList (pyValues H.to_id_dict), rfl, rfl, rfl, ?_⟩
    intro n
    rw [hvals]
    show n ∈ pyValues H.to_id_dict ↔ _
    rw [hvals]

/-- The §8 scenario with the generator's root convention (`parent_id = 0`
marks the root, as `remove_root_parent` produces). -/
def wRootZero : TreeNode :=
  .mk (mkNode 1 "Directory" "R" (some 0)) [mkNode 5 "File" "C" (some 1)]
    [.mk (mkNode 2 "Directory" "S" (some 1))
      [mkNode 3 "File" "A" (some 2), mkNode 4 "File" "B" (some 2)] []]

/-- C2 witness: the scenario dataset with numeric parent ids round trips
through the csv adapter. -/
theorem C2_witness :
    (FileType.CSV ≠ FileType.PROTOBUF)
    ∧ (List.map Node.id wRootZero.node_iter).Nodup
    ∧ (∀ n ∈ wRootZero.node_iter, (n.parent_id).isSome = true)
    ∧ (∃ ar out m,
        Customs.write (some wRootZero) wRootZero.to_id_dict .CSV = some ar
        ∧ Customs.read .CSV ar = .ok out
        ∧ recordsOf out = some m
        ∧ ∀ n : Node, n ∈ pyValues m ↔ n ∈ wRootZero.node_iter) :=
  ⟨by decide, by decide, by decide,
   C2_roundtrip wRootZero .CSV (by decide) (by decide) (by decide)⟩

/-- A dataset that is legal under the claim (pairwise-distinct ids): a
single root directory whose parent identifier is absent (`None`), exactly
as `node.py` documents for a root node. -/
def rootNoneTree : TreeNode := .mk (mkNode 1 "Directory" "R" none) [] []

/-- C2 counterexample: the csv adapter does not round trip this dataset.
`csv.DictWriter` renders the root's `None` parent as an empty cell, and the
read branch's `int(line['parent_id'])` coercion raises `ValueError` on the
empty string, so reading back what was written fails instead of returning
the original records. -/
theorem C2_csv_none_parent_cex :
    (List.map Node.id rootNoneTree.node_iter).Nodup
    ∧ Customs.write (some rootNoneTree) rootNoneTree.to_id_dict .CSV
        = some (.rows [nodeToCsv (mkNode 1 "Directory" "R" none)])
    ∧ Customs.read .CSV (.rows [nodeToCsv (mkNode 1 "Directory" "R" none)])
        = .error (.valueError "") :=
  ⟨by decide, rfl, rfl⟩

/-! ## C3: flatten / reconstruct round trip

For a well-formed Hierarchy (the spec's §3 invariants), flattening with
`to_id_dict` and rebuilding with `Customs.translate` reproduces the tree
exactly.  The development characterises, for each subtree `T` of the root,
which records of the full traversal the two linking passes attach to `T`'s
shell. -/

/-- The spec's Hierarchy invariants (§3): every tree node is a directory
record owning only file records, each record's parent identifier agrees
with the tree edge that reaches it, the root is parentless, identifiers
are pairwise distinct, and identifiers are genuine (non-zero) inode
numbers. -/
def ValidHierarchy (t : TreeNode) : Prop :=
  kindsOk t = true ∧ linksOk t = true ∧ t.me.noParent = true
    ∧ (List.map Node.id t.node_iter).Nodup
    ∧ ∀ n ∈ t.node_iter, n.id ≠ 0

mutual

/-- Height of a hierarchy node (enough fuel for `materialize`). -/
def heightTN : TreeNode → Nat
  | .mk _ _ dirs => heightList dirs + 1

/-- Height of a subtree list. -/
def heightList : List TreeNode → Nat
  | [] => 0
  | t :: ts => max (heightTN t) (heightList ts)

end

theorem dirsLinked_forall :
    ∀ (pid : Nat) (ts : List TreeNode), dirsLinked pid ts = true →
      ∀ T ∈ ts, T.me.parent_id = some pid ∧ linksOk T = true := by
  intro pid ts
  induction ts with
  | nil => intro _ T hT; simp at hT
  | cons t ts ih =>
    intro h T hT
    rw [dirsLinked, Bool.and_eq_true, Bool.and_eq_true] at h
    rcases List.mem_cons.mp hT with rfl | hT
    · exact ⟨eq_of_beq h.1.1, h.1.2⟩
    · exact ih h.2 T hT

theorem iter_self (t : TreeNode) : t ∈ t.iter := by
  cases t with
  | mk me files dirs => exact List.mem_cons_self _ _

theorem mem_me_node_iter :
    (∀ t : TreeNode, ∀ T ∈ t.iter, T.me ∈ t.node_iter)
    ∧ (∀ ts : List TreeNode, ∀ T ∈ iterList ts, T.me ∈ nodeIterList ts) := by
  apply TreeNode.ind
  · intro me files dirs ih T hT
    rw [TreeNode.iter] at hT
    rcases List.mem_cons.mp hT with rfl | hT
    · exact List.mem_cons_self _ _
    · rw [TreeNode.node_iter]
      exact List.mem_cons_of_mem _ (List.mem_append_right _ (ih T hT))
  · intro T hT; simp [iterList] at hT
  · intro t ts iht ihts T hT
    rw [iterList] at hT
    rw [nodeIterList]
    rcases List.mem_append.mp hT with hT | hT
    · exact List.mem_append_left _ (iht T hT)
    · exact List.mem_append_right _ (ihts T hT)

theorem node_iter_sublist :
    (∀ t : TreeNode, ∀ T ∈ t.iter, T.node_iter.Sublist t.node_iter)
    ∧ (∀ ts : List TreeNode, ∀ T ∈ iterList ts, T.node_iter.Sublist (nodeIterList ts)) := by
  apply TreeNode.ind
  · intro me files dirs ih T hT
    rw [TreeNode.iter] at hT
    rcases List.mem_cons.mp hT with rfl | hT
    · exact List.Sublist.refl _
    · rw [TreeNode.node_iter]
      exact ((ih T hT).trans (List.sublist_append_right files _)).trans
        (List.sublist_cons_self me _)
  · intro T hT; simp [iterList] at hT
  · intro t ts iht ihts T hT
    rw [iterList] at hT
    rw [nodeIterList]
    rcases List.mem_append.mp hT with hT | hT
    · exact (iht T hT).trans (List.sublist_append_left _ _)
    · exact (ihts T hT).trans (List.sublist_append_right _ _)

theorem kindsOk_sub :
    (∀ t : TreeNode, kindsOk t = true → ∀ T ∈ t.iter, kindsOk T = true)
    ∧ (∀ ts : List TreeNode, kindsOkList ts = true →
        ∀ T ∈ iterList ts, kindsOk T = true) := by
  apply TreeNode.ind
  · intro me files dirs ih hk T hT
    rw [TreeNode.iter] at hT
    rcases List.mem_cons.mp hT with rfl | hT
    · exact hk
    · rw [kindsOk, Bool.and_eq_true] at hk
      exact ih hk.2 T hT
  · intro _ T hT; simp [iterList] at hT
  · intro t ts iht ihts hk T hT
    rw [kindsOkList, Bool.and_eq_true] at hk
    rw [iterList] at hT
    rcases List.mem_append.mp hT with hT | hT
    · exact iht hk.1 T hT
    · exact ihts hk.2 T hT

theorem linksOk_sub :
    (∀ t : TreeNode, linksOk t = true → ∀ T ∈ t.iter, linksOk T = true)
    ∧ (∀ ts : List TreeNode, (∀ d ∈ ts, linksOk d = true) →
        ∀ T ∈ iterList ts, linksOk T = true) := by
  apply TreeNode.ind
  · intro me files dirs ih hl T hT
    rw [TreeNode.iter] at hT
    rcases List.mem_cons.mp hT with rfl | hT
    · exact hl
    · rw [linksOk, Bool.and_eq_true] at hl
      exact ih (fun d hd => (dirsLinked_forall me.id dirs hl.2 d hd).2) T hT
  · intro _ T hT; simp [iterList] at hT
  · intro t ts iht ihts hl T hT
    rw [iterList] at hT
    rcases List.mem_append.mp hT with hT | hT
    · exact iht (hl t (List.mem_cons_self _ _)) T hT
    · exact ihts (fun d hd => hl d (List.mem_cons_of_mem _ hd)) T hT

theorem sublist_nodeIterList_of_mem :
    ∀ (ts : List TreeNode) (d : TreeNode), d ∈ ts →
      d.node_iter.Sublist (nodeIterList ts) := by
  intro ts
  induction ts with
  | nil => intro d hd; simp at hd
  | cons t ts ih =>
    intro d hd
    rw [nodeIterList]
    rcases List.mem_cons.mp hd with rfl | hd
    · exact List.sublist_append_left _ _
    · exact (ih d hd).trans (List.sublist_append_right _ _)

theorem mem_iterList_of_mem_iter :
    ∀ (ts : List TreeNode) (d X : TreeNode), d ∈ ts → X ∈ d.iter →
      X ∈ iterList ts := by
  intro ts
  induction ts with
  | nil => intro d X hd; simp at hd
  | cons t ts ih =>
    intro d X hd hX
    rw [iterList]
    rcases List.mem_cons.mp hd with rfl | hd
    · exact List.mem_append_left _ hX
    · exact List.mem_append_right _ (ih d X hd hX)

/-- Records the dir-linking pass attaches to the shell with key `q`:
non-parentless records with parent id `q` that are directories. -/
def predD (q : Nat) (n : Node) : Bool :=
  (!n.noParent && (n.parent_id == some q)) && n.is_dir

/-- Records the file-linking pass attaches to the shell with key `q`:
file records with parent id `q`. -/
def predF (q : Nat) (n : Node) : Bool :=
  !n.is_dir && (n.parent_id == some q)

theorem filter_predD_subtree :
    (∀ t : TreeNode, ∀ q : Nat, kindsOk t = true → linksOk t = true →
      q ∉ List.map Node.id t.node_iter →
      List.filter (predD q) t.node_iter = if predD q t.me then [t.me] else [])
    ∧ (∀ ts : List TreeNode, ∀ q : Nat, kindsOkList ts = true →
      (∀ d ∈ ts, linksOk d = true) →
      q ∉ List.map Node.id (nodeIterList ts) →
      (∀ d ∈ ts, ((d.me.parent_id == some q) : Bool) = false) →
      List.filter (predD q) (nodeIterList ts) = []) := by
  apply TreeNode.ind
  · intro me files dirs ih q hk hl hq
    rw [kindsOk, Bool.and_eq_true, Bool.and_eq_true] at hk
    obtain ⟨⟨hme, hfiles⟩, hkd⟩ := hk
    rw [linksOk, Bool.and_eq_true] at hl
    obtain ⟨hlf, hld⟩ := hl
    have hmeq : me.id ≠ q := by
      intro h
      exact hq (h ▸ by
        rw [TreeNode.node_iter, List.map_cons]
        exact List.mem_cons_self _ _)
    have hffil : List.filter (predD q) files = [] := by
      rw [List.filter_eq_nil_iff]
      intro f hf
      have := List.all_eq_true.mp hfiles f hf
      simp only [Bool.not_eq_true'] at this
      simp [predD, this]
    have hdfil : List.filter (predD q) (nodeIterList dirs) = [] := by
      refine ih q hkd (fun d hd => (dirsLinked_forall me.id dirs hld d hd).2) ?_ ?_
      · intro hmem
        refine hq ?_
        rw [TreeNode.node_iter, List.map_cons]
        refine List.mem_cons_of_mem _ ?_
        rw [List.map_append]
        exact List.mem_append_right _ hmem
      · intro d hd
        have hpar := (dirsLinked_forall me.id dirs hld d hd).1
        rw [hpar, beq_eq_false_iff_ne]
        intro hc
        exact hmeq (Option.some.inj hc)
    rw [TreeNode.node_iter, List.filter_cons, List.filter_append, hffil, hdfil]
    rw [TreeNode.me]
    by_cases hp : predD q me
    · rw [if_pos hp, if_pos hp]
      rfl
    · rw [if_neg hp, if_neg hp]
      rfl
  · intro q _ _ _ _
    rfl
  · intro t ts iht ihts q hk hl hq hme
    rw [kindsOkList, Bool.and_eq_true] at hk
    rw [nodeIterList, List.filter_append]
    have h1 : List.filter (predD q) t.node_iter = [] := by
      rw [iht q hk.1 (hl t (List.mem_cons_self _ _)) (fun hmem => hq (by
        rw [nodeIterList, List.map_append]
        exact List.mem_append_left _ hmem))]
      have := hme t (List.mem_cons_self _ _)
      simp [predD, this]
    have h2 : List.filter (predD q) (nodeIterList ts) = [] := by
      refine ihts q hk.2 (fun d hd => hl d (List.mem_cons_of_mem _ hd)) ?_
        (fun d hd => hme d (List.mem_cons_of_mem _ hd))
      intro hmem
      refine hq ?_
      rw [nodeIterList, List.map_append]
      exact List.mem_append_right _ hmem
    rw [h1, h2]
    rfl

theorem filter_predF_subtree :
    (∀ t : TreeNode, ∀ q : Nat, kindsOk t = true → linksOk t = true →
      q ∉ List.map Node.id t.node_iter →
      List.filter (predF q) t.node_iter = [])
    ∧ (∀ ts : List TreeNode, ∀ q : Nat, kindsOkList ts = true →
      (∀ d ∈ ts, linksOk d = true) →
      q ∉ List.map Node.id (nodeIterList ts) →
      List.filter (predF q) (nodeIterList ts) = []) := by
  apply TreeNode.ind
  · intro me files dirs ih q hk hl hq
    rw [kindsOk, Bool.and_eq_true, Bool.and_eq_true] at hk
    obtain ⟨⟨hme, hfiles⟩, hkd⟩ := hk
    rw [linksOk, Bool.and_eq_true] at hl
    obtain ⟨hlf, hld⟩ := hl
    have hmeq : me.id ≠ q := by
      intro h
      exact hq (h ▸ by
        rw [TreeNode.node_iter, List.map_cons]
        exact List.mem_cons_self _ _)
    have hffil : List.filter (predF q) files = [] := by
      rw [List.filter_eq_nil_iff]
      intro f hf
      have hfp := List.all_eq_true.mp hlf f hf
      have hfp2 : f.parent_id = some me.id := eq_of_beq hfp
      have hbe : ((some me.id == some q) : Bool) = false := by
        rw [beq_eq_false_iff_ne]
        intro hc
        exact hmeq (Option.some.inj hc)
      simp [predF, hfp2, hbe]
    have hdfil : List.filter (predF q) (nodeIterList dirs) = [] := by
      refine ih q hkd (fun d hd => (dirsLinked_forall me.id dirs hld d hd).2) ?_
      intro hmem
      refine hq ?_
      rw [TreeNode.node_iter, List.map_cons]
      refine List.mem_cons_of_mem _ ?_
      rw [List.map_append]
      exact List.mem_append_right _ hmem
    rw [TreeNode.node_iter, List.filter_cons, List.filter_append, hffil, hdfil]
    simp [predF, hme]
  · intro q _ _ _
    rfl
  · intro t ts iht ihts q hk hl hq
    rw [kindsOkList, Bool.and_eq_true] at hk
    rw [nodeIterList, List.filter_append]
    rw [iht q hk.1 (hl t (List.mem_cons_self _ _)) (fun hmem => hq (by
      rw [nodeIterList, List.map_append]
      exact List.mem_append_left _ hmem))]
    rw [ihts q hk.2 (fun d hd => hl d (List.mem_cons_of_mem _ hd)) (fun hmem => hq (by
      rw [nodeIterList, List.map_append]
      exact List.mem_append_right _ hmem))]
    rfl

/-- Over a forest of directly-owned children (all linked to parent `pid`),
the dir-linking filter collects exactly the children's own records, in
order. -/
theorem children_predD :
    ∀ (pid : Nat) (ts : List TreeNode), kindsOkList ts = true →
      dirsLinked pid ts = true → pid ≠ 0 →
      (∀ d ∈ ts, pid ∉ List.map Node.id d.node_iter) →
      List.filter (predD pid) (nodeIterList ts) = List.map TreeNode.me ts := by
  intro pid ts
  induction ts with
  | nil => intro _ _ _ _; rfl
  | cons d ds ih =>
    intro hk hld hpid hnotin
    rw [kindsOkList, Bool.and_eq_true] at hk
    rw [dirsLinked, Bool.and_eq_true, Bool.and_eq_true] at hld
    obtain ⟨⟨hbe, hlk⟩, hlds⟩ := hld
    have hpar : d.me.parent_id = some pid := eq_of_beq hbe
    have hdir : d.me.is_dir = true := by
      cases d with
      | mk me files dirs =>
        rw [kindsOk, Bool.and_eq_true, Bool.and_eq_true] at hk
        exact hk.1.1.1
    have hself : List.filter (predD pid) d.node_iter = [d.me] := by
      rw [(filter_predD_subtree).1 d pid (by
          cases d with
          | mk me files dirs => exact hk.1) hlk
        (hnotin d (List.mem_cons_self _ _))]
      have hpD : predD pid d.me = true := by
        have hnp : d.me.noParent = false := by
          rw [Node.noParent, hpar]
          simpa using hpid
        simp [predD, hnp, hpar, hdir]
      rw [if_pos hpD]
    rw [nodeIterList, List.filter_append, hself,
      ih hk.2 hlds hpid (fun d2 hd2 => hnotin d2 (List.mem_cons_of_mem _ hd2)),
      List.map_cons]
    rfl

/-- For every subtree `T` of a well-formed tree, the dir-linking filter
over the full traversal collects exactly `T`'s child directories' records,
in insertion order. -/
theorem filter_predD_children :
    (∀ t : TreeNode, ∀ T ∈ t.iter, kindsOk t = true → linksOk t = true →
      (List.map Node.id t.node_iter).Nodup →
      (∀ n ∈ t.node_iter, n.id ≠ 0) →
      ((t.me.parent_id == some T.me.id) : Bool) = false →
      List.filter (predD T.me.id) t.node_iter = List.map TreeNode.me T.dirs)
    ∧ (∀ ts : List TreeNode, ∀ T ∈ iterList ts, kindsOkList ts = true →
      (∀ d ∈ ts, linksOk d = true) →
      (List.map Node.id (nodeIterList ts)).Nodup →
      (∀ n ∈ nodeIterList ts, n.id ≠ 0) →
      (∀ d ∈ ts, ((d.me.parent_id == some T.me.id) : Bool) = false) →
      List.filter (predD T.me.id) (nodeIterList ts) = List.map TreeNode.me T.dirs) := by
  apply TreeNode.ind
  · intro me files dirs ihQ T hT hk hl hnd hpos hbe
    rw [kindsOk, Bool.and_eq_true, Bool.and_eq_true] at hk
    obtain ⟨⟨hme, hfiles⟩, hkd⟩ := hk
    rw [linksOk, Bool.and_eq_true] at hl
    obtain ⟨hlf, hld⟩ := hl
    rw [TreeNode.node_iter, List.map_cons, List.map_append, List.nodup_cons] at hnd
    obtain ⟨hmeout, hnd2⟩ := hnd
    rw [TreeNode.iter] at hT
    rcases List.mem_cons.mp hT with rfl | hT
    · -- T is this node: collect exactly its child dirs
      rw [TreeNode.me, TreeNode.dirs]
      have hbe2 : ((me.parent_id == some me.id) : Bool) = false := hbe
      rw [TreeNode.node_iter, List.filter_cons, List.filter_append]
      have hbefalse : predD me.id me = false := by
        simp [predD, hbe2]
      rw [if_neg (by rw [hbefalse]; exact Bool.false_ne_true)]
      have hffil : List.filter (predD me.id) files = [] := by
        rw [List.filter_eq_nil_iff]
        intro f hf
        have hfd := List.all_eq_true.mp hfiles f hf
        simp only [Bool.not_eq_true'] at hfd
        simp [predD, hfd]
      have hdfil := children_predD me.id dirs hkd hld
        (hpos me (by rw [TreeNode.node_iter]; exact List.mem_cons_self _ _))
        (by
          intro d hd a
          exact hmeout (by
            rw [List.mem_append]
            right
            exact ((sublist_nodeIterList_of_mem dirs d hd).map Node.id).mem a))
      rw [hffil, hdfil]
      rfl
    · -- T lies inside one of the child subtrees
      have hTme : T.me ∈ nodeIterList dirs := (mem_me_node_iter).2 dirs T hT
      have hTid : T.me.id ∈ List.map Node.id (nodeIterList dirs) :=
        List.mem_map_of_mem Node.id hTme
      have hmene : me.id ≠ T.me.id := by
        intro h
        exact hmeout (by
          rw [List.mem_append]
          right
          exact h ▸ hTid)
      rw [TreeNode.node_iter, List.filter_cons, List.filter_append]
      rw [if_neg (by rw [TreeNode.me] at hbe; simp [predD, hbe])]
      have hffil : List.filter (predD T.me.id) files = [] := by
        rw [List.filter_eq_nil_iff]
        intro f hf
        have hfp : f.parent_id = some me.id :=
          eq_of_beq (List.all_eq_true.mp hlf f hf)
        have hbe2 : ((f.parent_id == some T.me.id) : Bool) = false := by
          rw [hfp, beq_eq_false_iff_ne]
          intro hc
          exact hmene (Option.some.inj hc)
        simp [predD, hbe2]
      have hdfil := ihQ T hT hkd
        (fun d hd => (dirsLinked_forall me.id dirs hld d hd).2)
        (hnd2.sublist (List.sublist_append_right _ _))
        (fun n hn => hpos n (by
          rw [TreeNode.node_iter]
          exact List.mem_cons_of_mem _ (List.mem_append_right _ hn)))
        (by
          intro d hd
          have hdp := (dirsLinked_forall me.id dirs hld d hd).1
          rw [hdp, beq_eq_false_iff_ne]
          intro hc
          exact hmene (Option.some.inj hc))
      rw [hffil, hdfil]
      rfl
  · intro T hT
    simp [iterList] at hT
  · intro t ts ihP ihQ T hT hk hl hnd hpos hbe
    rw [kindsOkList, Bool.and_eq_true] at hk
    rw [nodeIterList] at hnd hpos
    rw [List.map_append, List.nodup_append] at hnd
    obtain ⟨hnd1, hnd2, hdisj⟩ := hnd
    rw [iterList] at hT
    rw [nodeIterList, List.filter_append]
    rcases List.mem_append.mp hT with hT | hT
    · have hTid : T.me.id ∈ List.map Node.id t.node_iter :=
        List.mem_map_of_mem Node.id ((mem_me_node_iter).1 t T hT)
      have h1 := ihP T hT hk.1 (hl t (List.mem_cons_self _ _)) hnd1
        (fun n hn => hpos n (List.mem_append_left _ hn))
        (hbe t (List.mem_cons_self _ _))
      have h2 := (filter_predD_subtree).2 ts T.me.id hk.2
        (fun d hd => hl d (List.mem_cons_of_mem _ hd))
        (fun hmem => hdisj hTid hmem)
        (fun d hd => hbe d (List.mem_cons_of_mem _ hd))
      rw [h1, h2, List.append_nil]
    · have hTid : T.me.id ∈ List.map Node.id (nodeIterList ts) :=
        List.mem_map_of_mem Node.id ((mem_me_node_iter).2 ts T hT)
      have h1 : List.filter (predD T.me.id) t.node_iter = [] := by
        rw [(filter_predD_subtree).1 t T.me.id hk.1
          (hl t (List.mem_cons_self _ _)) (fun hmem => hdisj hmem hTid)]
        have := hbe t (List.mem_cons_self _ _)
        simp [predD, this]
      have h2 := ihQ T hT hk.2
        (fun d hd => hl d (List.mem_cons_of_mem _ hd)) hnd2
        (fun n hn => hpos n (List.mem_append_right _ hn))
        (fun d hd => hbe d (List.mem_cons_of_mem _ hd))
      rw [h1, h2]
      rfl

/-- For every subtree `T` of a well-formed tree, the file-linking filter
over the full traversal collects exactly `T`'s own file records, in
insertion order. -/
theorem filter_predF_files :
    (∀ t : TreeNode, ∀ T ∈ t.iter, kindsOk t = true → linksOk t = true →
      (List.map Node.id t.node_iter).Nodup →
      List.filter (predF T.me.id) t.node_iter = T.files)
    ∧ (∀ ts : List TreeNode, ∀ T ∈ iterList ts, kindsOkList ts = true →
      (∀ d ∈ ts, linksOk d = true) →
      (List.map Node.id (nodeIterList ts)).Nodup →
      List.filter (predF T.me.id) (nodeIterList ts) = T.files) := by
  apply TreeNode.ind
  · intro me files dirs ihQ T hT hk hl hnd
    rw [kindsOk, Bool.and_eq_true, Bool.and_eq_true] at hk
    obtain ⟨⟨hme, hfiles⟩, hkd⟩ := hk
    rw [linksOk, Bool.and_eq_true] at hl
    obtain ⟨hlf, hld⟩ := hl
    rw [TreeNode.node_iter, List.map_cons, List.map_append, List.nodup_cons] at hnd
    obtain ⟨hmeout, hnd2⟩ := hnd
    rw [TreeNode.iter] at hT
    rcases List.mem_cons.mp hT with rfl | hT
    · rw [TreeNode.me, TreeNode.files, TreeNode.node_iter, List.filter_cons,
        List.filter_append]
      rw [if_neg (by simp [predF, hme])]
      have hffil : List.filter (predF me.id) files = files := by
        rw [List.filter_eq_self]
        intro f hf
        have hfd := List.all_eq_true.mp hfiles f hf
        have hfp := List.all_eq_true.mp hlf f hf
        simp only [Bool.not_eq_true'] at hfd
        simp [predF, hfd, hfp]
      have hdfil : List.filter (predF me.id) (nodeIterList dirs) = [] := by
        refine (filter_predF_subtree).2 dirs me.id hkd
          (fun d hd => (dirsLinked_forall me.id dirs hld d hd).2) ?_
        intro hmem
        exact hmeout (List.mem_append_right _ hmem)
      rw [hffil, hdfil, List.append_nil]
    · have hTme : T.me ∈ nodeIterList dirs := (mem_me_node_iter).2 dirs T hT
      have hTid : T.me.id ∈ List.map Node.id (nodeIterList dirs) :=
        List.mem_map_of_mem Node.id hTme
      have hmene : me.id ≠ T.me.id := by
        intro h
        exact hmeout (List.mem_append_right _ (h ▸ hTid))
      rw [TreeNode.node_iter, List.filter_cons, List.filter_append]
      rw [if_neg (by simp [predF, hme])]
      have hffil : List.filter (predF T.me.id) files = [] := by
        rw [List.filter_eq_nil_iff]
        intro f hf
        have hfp : f.parent_id = some me.id :=
          eq_of_beq (List.all_eq_true.mp hlf f hf)
        have hbe2 : ((f.parent_id == some T.me.id) : Bool) = false := by
          rw [hfp, beq_eq_false_iff_ne]
          intro hc
          exact hmene (Option.some.inj hc)
        simp [predF, hbe2]
      have hdfil := ihQ T hT hkd
        (fun d hd => (dirsLinked_forall me.id dirs hld d hd).2)
        (hnd2.sublist (List.sublist_append_right _ _))
      rw [hffil, hdfil]
      rfl
  · intro T hT
    simp [iterList] at hT
  · intro t ts ihP ihQ T hT hk hl hnd
    rw [kindsOkList, Bool.and_eq_true] at hk
    rw [nodeIterList] at hnd
    rw [List.map_append, List.nodup_append] at hnd
    obtain ⟨hnd1, hnd2, hdisj⟩ := hnd
    rw [iterList] at hT
    rw [nodeIterList, List.filter_append]
    rcases List.mem_append.mp hT with hT | hT
    · have hTid : T.me.id ∈ List.map Node.id t.node_iter :=
        List.mem_map_of_mem Node.id ((mem_me_node_iter).1 t T hT)
      have h1 := ihP T hT hk.1 (hl t (List.mem_cons_self _ _)) hnd1
      have h2 := (filter_predF_subtree).2 ts T.me.id hk.2
        (fun d hd => hl d (List.mem_cons_of_mem _ hd))
        (fun hmem => hdisj hTid hmem)
      rw [h1, h2, List.append_nil]
    · have hTid : T.me.id ∈ List.map Node.id (nodeIterList ts) :=
        List.mem_map_of_mem Node.id ((mem_me_node_iter).2 ts T hT)
      have h1 := (filter_predF_subtree).1 t T.me.id hk.1
        (hl t (List.mem_cons_self _ _)) (fun hmem => hdisj hmem hTid)
      have h2 := ihQ T hT hk.2
        (fun d hd => hl d (List.mem_cons_of_mem _ hd)) hnd2
      rw [h1, h2]
      rfl

/-- Every record of a well-formed tree is the root's record or carries the
id of some directory record of the tree as its parent id. -/
theorem parent_resolves :
    (∀ t : TreeNode, kindsOk t = true → linksOk t = true →
      ∀ n ∈ t.node_iter, n = t.me
        ∨ ∃ p, n.parent_id = some p
            ∧ p ∈ List.map Node.id (List.filter Node.is_dir t.node_iter))
    ∧ (∀ ts : List TreeNode, kindsOkList ts = true → (∀ d ∈ ts, linksOk d = true) →
      ∀ n ∈ nodeIterList ts, (∃ d, d ∈ ts ∧ n = d.me)
        ∨ ∃ p, n.parent_id = some p
            ∧ p ∈ List.map Node.id (List.filter Node.is_dir (nodeIterList ts))) := by
  apply TreeNode.ind
  · intro me files dirs ihQ hk hl n hn
    rw [kindsOk, Bool.and_eq_true, Bool.and_eq_true] at hk
    obtain ⟨⟨hme, hfiles⟩, hkd⟩ := hk
    rw [linksOk, Bool.and_eq_true] at hl
    obtain ⟨hlf, hld⟩ := hl
    have hmedir : me.id ∈ List.map Node.id
        (List.filter Node.is_dir (TreeNode.mk me files dirs).node_iter) := by
      rw [TreeNode.node_iter, List.filter_cons, if_pos hme, List.map_cons]
      exact List.mem_cons_self _ _
    rw [TreeNode.node_iter] at hn
    rcases List.mem_cons.mp hn with rfl | hn
    · exact Or.inl rfl
    rcases List.mem_append.mp hn with hn | hn
    · refine Or.inr ⟨me.id, eq_of_beq (List.all_eq_true.mp hlf n hn), hmedir⟩
    · have hsub : ∀ p, p ∈ List.map Node.id (List.filter Node.is_dir (nodeIterList dirs)) →
          p ∈ List.map Node.id (List.filter Node.is_dir (TreeNode.mk me files dirs).node_iter) := by
        intro p hp
        rw [TreeNode.node_iter, List.filter_cons, if_pos hme, List.map_cons]
        refine List.mem_cons_of_mem _ ?_
        rw [List.filter_append, List.map_append]
        exact List.mem_append_right _ hp
      rcases ihQ hkd (fun d hd => (dirsLinked_forall me.id dirs hld d hd).2) n hn with
        ⟨d, hd, rfl⟩ | ⟨p, hp, hpin⟩
      · exact Or.inr ⟨me.id, (dirsLinked_forall me.id dirs hld d hd).1, hmedir⟩
      · exact Or.inr ⟨p, hp, hsub p hpin⟩
  · intro _ _ n hn
    simp [nodeIterList] at hn
  · intro t ts ihP ihQ hk hl n hn
    rw [kindsOkList, Bool.and_eq_true] at hk
    rw [nodeIterList] at hn
    have hsubL : ∀ p, p ∈ List.map Node.id (List.filter Node.is_dir t.node_iter) →
        p ∈ List.map Node.id (List.filter Node.is_dir (nodeIterList (t :: ts))) := by
      intro p hp
      rw [nodeIterList, List.filter_append, List.map_append]
      exact List.mem_append_left _ hp
    have hsubR : ∀ p, p ∈ List.map Node.id (List.filter Node.is_dir (nodeIterList ts)) →
        p ∈ List.map Node.id (List.filter Node.is_dir (nodeIterList (t :: ts))) := by
      intro p hp
      rw [nodeIterList, List.filter_append, List.map_append]
      exact List.mem_append_right _ hp
    rcases List.mem_append.mp hn with hn | hn
    · rcases ihP hk.1 (hl t (List.mem_cons_self _ _)) n hn with h | ⟨p, hp, hpin⟩
      · exact Or.inl ⟨t, List.mem_cons_self _ _, h⟩
      · exact Or.inr ⟨p, hp, hsubL p hpin⟩
    · rcases ihQ hk.2 (fun d hd => hl d (List.mem_cons_of_mem _ hd)) n hn with
        ⟨d, hd, rfl⟩ | ⟨p, hp, hpin⟩
      · exact Or.inl ⟨d, List.mem_cons_of_mem _ hd, rfl⟩
      · exact Or.inr ⟨p, hp, hsubR p hpin⟩

theorem rootFold_const :
    ∀ (items : List (Nat × Node)) (root : Option Nat),
      (∀ kme ∈ items, (kme.2 : Node).noParent = false) →
      rootFold items root = root := by
  intro items
  induction items with
  | nil => intro root _; rfl
  | cons kme rest ih =>
    intro root h
    obtain ⟨k, me⟩ := kme
    rw [rootFold_cons, if_neg (by
      have := h (k, me) (List.mem_cons_self _ _)
      simp [this])]
    exact ih root (fun kme2 hm => h kme2 (List.mem_cons_of_mem _ hm))

/-- Dereferencing the shells recovers a subtree once each of its nodes'
shells holds exactly that node's record, files and child ids. -/
theorem materialize_correct :
    (∀ T : TreeNode, ∀ (fuel : Nat) (shells : PyDict Shell),
      heightTN T ≤ fuel →
      (∀ X ∈ T.iter, pyGet shells X.me.id
        = some ⟨X.me, X.files, List.map (fun dd => dd.me.id) X.dirs⟩) →
      materialize shells fuel T.me.id = some T)
    ∧ (∀ ts : List TreeNode, ∀ (fuel : Nat) (shells : PyDict Shell),
      heightList ts ≤ fuel →
      (∀ X ∈ iterList ts, pyGet shells X.me.id
        = some ⟨X.me, X.files, List.map (fun dd => dd.me.id) X.dirs⟩) →
      materializeList shells fuel (List.map (fun dd => dd.me.id) ts) = some ts) := by
  apply TreeNode.ind
  · intro me files dirs ihQ fuel shells hh hget
    rw [heightTN] at hh
    cases fuel with
    | zero => omega
    | succ f =>
      have hself := hget (TreeNode.mk me files dirs) (iter_self _)
      rw [TreeNode.me, TreeNode.files, TreeNode.dirs] at hself
      have hrest : materializeList shells f
          (List.map (fun dd : TreeNode => dd.me.id) dirs) = some dirs := by
        refine ihQ f shells (by omega) ?_
        intro X hX
        refine hget X ?_
        rw [TreeNode.iter]
        exact List.mem_cons_of_mem _ hX
      rw [TreeNode.me]
      rw [materialize, hself]
      simp [hrest]
  · intro fuel shells _ _
    simp [materializeList]
  · intro t ts ihP ihQ fuel shells hh hget
    rw [heightList] at hh
    have h1 : materialize shells fuel t.me.id = some t := by
      refine ihP fuel shells (by omega) ?_
      intro X hX
      refine hget X ?_
      rw [iterList]
      exact List.mem_append_left _ hX
    have h2 : materializeList shells fuel
        (List.map (fun dd : TreeNode => dd.me.id) ts) = some ts := by
      refine ihQ fuel shells (by omega) ?_
      intro X hX
      refine hget X ?_
      rw [iterList]
      exact List.mem_append_right _ hX
    rw [List.map_cons, materializeList, h1]
    simp [h2]

theorem node_iter_head (t : TreeNode) :
    t.node_iter = t.me :: (t.files ++ nodeIterList t.dirs) := by
  cases t
  rfl

theorem me_mem_node_iter (t : TreeNode) : t.me ∈ t.node_iter := by
  rw [node_iter_head]
  exact List.mem_cons_self _ _

theorem kindsOk_me (t : TreeNode) (h : kindsOk t = true) : t.me.is_dir = true := by
  cases t with
  | mk me files dirs =>
    rw [kindsOk, Bool.and_eq_true, Bool.and_eq_true] at h
    exact h.1.1

/-- C3: for a Hierarchy satisfying the spec's §3 invariants, flattening
with `to_id_dict` and reconstructing with `Customs.translate` succeeds,
marks the original root, and the reconstructed Hierarchy is the original
tree itself — so the two traversals are equal as sequences (the flat
mapping preserves insertion order) and a fortiori as sets. -/
theorem C3_flatten_translate_roundtrip (H : TreeNode) (hv : ValidHierarchy H) :
    ∃ shells, Customs.translate none H.to_id_dict
        = .ok (.fromDict (some H.me.id) shells)
      ∧ ∃ H2 : TreeNode, materialize shells (heightTN H) H.me.id = some H2
        ∧ H2 = H ∧ H2.node_iter = H.node_iter
        ∧ (∀ n : Node, n ∈ H2.node_iter ↔ n ∈ H.node_iter) := by
  obtain ⟨hk, hl, hnp, hnd, hpos⟩ := hv
  have hd : H.to_id_dict = List.map (fun n : Node => (n.id, n)) H.node_iter :=
    to_id_dict_eq H hnd
  have hdkeys : pyKeys H.to_id_dict = List.map Node.id H.node_iter := by
    rw [hd, pyKeys, List.map_map]
    rfl
  have hdnodup : (pyKeys H.to_id_dict).Nodup := by
    rw [hdkeys]
    exact hnd
  have hne : H.to_id_dict ≠ [] := by
    rw [hd, node_iter_head]
    simp
  have hfilter_d : List.filter (fun kv : Nat × Node => (kv.2 : Node).is_dir)
        (List.map (fun n : Node => (n.id, n)) H.node_iter)
      = List.map (fun n : Node => (n.id, n)) (List.filter Node.is_dir H.node_iter) := by
    rw [List.filter_map]
    rfl
  have hitems : shellItems (buildShells H.to_id_dict)
      = List.map (fun n : Node => (n.id, n)) (List.filter Node.is_dir H.node_iter) := by
    rw [shellItems_buildShells _ hdnodup, hd, hfilter_d]
  have hshells0 : buildShells H.to_id_dict
      = List.map (fun n : Node => (n.id, (⟨n, [], []⟩ : Shell)))
          (List.filter Node.is_dir H.node_iter) := by
    rw [buildShells_eq _ hdnodup, hd, hfilter_d, List.map_map]
    rfl
  have hkeys0 : pyKeys (buildShells H.to_id_dict)
      = List.map Node.id (List.filter Node.is_dir H.node_iter) := by
    rw [hshells0, pyKeys, List.map_map]
    rfl
  have hdirnodup : (List.map Node.id (List.filter Node.is_dir H.node_iter)).Nodup :=
    hnd.sublist ((List.filter_sublist _).map Node.id)
  have hres := (parent_resolves).1 H hk hl
  have hmedir : H.me.is_dir = true := kindsOk_me H hk
  have hhypD : ∀ kme ∈ shellItems (buildShells H.to_id_dict),
      (kme.2 : Node).noParent = true
        ∨ ∃ p, (kme.2 : Node).parent_id = some p
            ∧ p ∈ pyKeys (buildShells H.to_id_dict) := by
    intro kme hm
    rw [hitems] at hm
    obtain ⟨n, hn, rfl⟩ := List.mem_map.mp hm
    have hnL : n ∈ H.node_iter := List.mem_of_mem_filter hn
    rcases hres n hnL with h | ⟨p, hp, hpin⟩
    · exact Or.inl (h ▸ hnp)
    · exact Or.inr ⟨p, hp, by rw [hkeys0]; exact hpin⟩
  obtain ⟨shells1, hld, hkeys1, hget1⟩ :=
    linkDirs_ok _ (buildShells H.to_id_dict) none hhypD
  have hLd : List.filter Node.is_dir H.node_iter
      = H.me :: List.filter Node.is_dir (H.files ++ nodeIterList H.dirs) := by
    rw [node_iter_head, List.filter_cons, if_pos hmedir]
  have hmeout : H.me.id ∉ List.map Node.id (H.files ++ nodeIterList H.dirs) := by
    have := hnd
    rw [node_iter_head, List.map_cons, List.nodup_cons] at this
    exact this.1
  have hroot : rootFold (shellItems (buildShells H.to_id_dict)) none
      = some H.me.id := by
    rw [hitems, hLd, List.map_cons, rootFold_cons, if_pos hnp]
    apply rootFold_const
    intro kme hm
    obtain ⟨n, hn, rfl⟩ := List.mem_map.mp hm
    have hnfx : n ∈ H.files ++ nodeIterList H.dirs := List.mem_of_mem_filter hn
    have hnL : n ∈ H.node_iter := by
      rw [node_iter_head]
      exact List.mem_cons_of_mem _ hnfx
    have hnne : n ≠ H.me := by
      intro h
      exact hmeout (h ▸ List.mem_map_of_mem Node.id hnfx)
    rcases hres n hnL with h | ⟨p, hp, hpin⟩
    · exact absurd h hnne
    · have hp0 : p ≠ 0 := by
        have hpids : p ∈ List.map Node.id H.node_iter :=
          ((List.filter_sublist _).map Node.id).mem hpin
        obtain ⟨m, hm2, hid⟩ := List.mem_map.mp hpids
        intro h0
        exact hpos m hm2 (by rw [hid, h0])
      show (Prod.snd (n.id, n)).noParent = false
      rw [Node.noParent]
      show (match n.parent_id with
        | none => true
        | some p => p == 0) = false
      rw [hp]
      exact beq_eq_false_iff_ne.mpr hp0
  rw [hroot] at hld
  have hhypF : ∀ kn ∈ H.to_id_dict, (kn.2 : Node).is_dir = false →
      ∃ p, (kn.2 : Node).parent_id = some p ∧ p ∈ pyKeys shells1 := by
    intro kn hm hdir
    rw [hd] at hm
    obtain ⟨n, hn, rfl⟩ := List.mem_map.mp hm
    rcases hres n hn with h | ⟨p, hp, hpin⟩
    · exfalso
      have : H.me.is_dir = false := h ▸ hdir
      rw [hmedir] at this
      cases this
    · exact ⟨p, hp, by rw [hkeys1, hkeys0]; exact hpin⟩
  obtain ⟨shells2, hlf, hkeys2, hget2⟩ := linkFiles_ok _ shells1 hhypF
  have htrans := translate_none_ok _ hne shells1 (some H.me.id) shells2 hld hlf
  have hHG : ∀ T ∈ H.iter, pyGet shells2 T.me.id
      = some ⟨T.me, T.files, List.map (fun dd : TreeNode => dd.me.id) T.dirs⟩ := by
    intro T hT
    have hTdir : T.me.is_dir = true :=
      kindsOk_me T ((kindsOk_sub).1 H hk T hT)
    have hTmem : T.me ∈ List.filter Node.is_dir H.node_iter :=
      List.mem_filter.mpr ⟨(mem_me_node_iter).1 H T hT, hTdir⟩
    have hbase : pyGet (buildShells H.to_id_dict) T.me.id = some ⟨T.me, [], []⟩ := by
      rw [hshells0]
      exact pyGet_map_nodup Node.id (fun n => (⟨n, [], []⟩ : Shell)) _
        hdirnodup T.me hTmem
    have hTid0 : T.me.id ≠ 0 := hpos T.me ((mem_me_node_iter).1 H T hT)
    have hbe : ((H.me.parent_id == some T.me.id) : Bool) = false := by
      cases hpid : H.me.parent_id with
      | none => rfl
      | some p =>
        have hp0 : p = 0 := by
          have h2 := hnp
          rw [Node.noParent] at h2
          rw [hpid] at h2
          exact eq_of_beq h2
        subst hp0
        rw [beq_eq_false_iff_ne]
        intro hc
        exact hTid0 (Option.some.inj hc).symm
    have hck : childKeys (shellItems (buildShells H.to_id_dict)) T.me.id
        = List.map (fun dd : TreeNode => dd.me.id) T.dirs := by
      rw [hitems, childKeys, List.filter_map, List.map_map]
      show List.map Node.id
          (List.filter
            (fun n : Node => !n.noParent && (n.parent_id == some T.me.id))
            (List.filter Node.is_dir H.node_iter))
        = List.map (fun dd : TreeNode => dd.me.id) T.dirs
      rw [List.filter_filter]
      show List.map Node.id (List.filter (predD T.me.id) H.node_iter)
        = List.map (fun dd : TreeNode => dd.me.id) T.dirs
      rw [(filter_predD_children).1 H T hT hk hl hnd hpos hbe, List.map_map]
      rfl
    have hfc : fileChildren H.to_id_dict T.me.id = T.files := by
      rw [hd, fileChildren, List.filter_map, List.map_map]
      show List.map (fun n : Node => n)
          (List.filter (predF T.me.id) H.node_iter) = T.files
      have hid := List.map_id (List.filter (predF T.me.id) H.node_iter)
      have : List.map (fun n : Node => n) (List.filter (predF T.me.id) H.node_iter)
          = List.filter (predF T.me.id) H.node_iter := hid
      rw [this, (filter_predF_files).1 H T hT hk hl hnd]
    rw [hget2 T.me.id, hget1 T.me.id, hbase]
    simp [hck, hfc]
  have hmat := (materialize_correct).1 H (heightTN H) shells2 (le_refl _) hHG
  exact ⟨shells2, htrans, H, hmat, rfl, rfl, fun n => Iff.rfl⟩

/-- C3 witness: the §8 scenario hierarchy (with the generator's numeric
root-parent convention) is valid, and flatten-then-translate reproduces
it exactly. -/
theorem C3_witness :
    ValidHierarchy wRootZero
    ∧ (∃ shells, Customs.translate none wRootZero.to_id_dict
        = .ok (.fromDict (some wRootZero.me.id) shells)
      ∧ ∃ H2 : TreeNode,
          materialize shells (heightTN wRootZero) wRootZero.me.id = some H2
          ∧ H2 = wRootZero ∧ H2.node_iter = wRootZero.node_iter
          ∧ (∀ n : Node, n ∈ H2.node_iter ↔ n ∈ wRootZero.node_iter)) :=
  ⟨⟨by decide, by decide, by decide, by decide, by decide⟩,
   C3_flatten_translate_roundtrip wRootZero
     ⟨by decide, by decide, by decide, by decide, by decide⟩⟩

end PySer
